import Mathlib

/-!
Verification of the CosmoDB multi-protocol database wire-client engine.

This file gives a shallow embedding, in Lean 4, of the byte-level codecs,
framing loops, authentication checks, transport buffer and connection pool of
the repository, and proves (or refutes) the specification claims about them.

Buffers (`Buffer` / `Uint8Array` in the source) are modelled as `List Nat`
with every entry a byte value; positions are absolute offsets as in the
source. JavaScript numbers holding byte reads are modelled as `Nat`, signed
32-bit reads as `Int`.

The file is organised as definitions (the embedding) first, then the
theorems about them.
-/

namespace WireBytes

/-- Byte string: each element is intended to be `< 256`. -/
abbrev Bytes := List Nat

/-- Reading one byte at an absolute offset; out-of-range reads give 0
(the theorems only ever exercise in-range reads). -/
def byteAt (b : Bytes) (i : Nat) : Nat := b.getD i 0

/-- Model of `buffer.readUInt16LE(offset)`. -/
def readUInt16LE (b : Bytes) (off : Nat) : Nat :=
  byteAt b off + 256 * byteAt b (off + 1)

/-- Model of `buffer.readUIntLE(offset, 3)`. -/
def readUIntLE3 (b : Bytes) (off : Nat) : Nat :=
  byteAt b off + 256 * byteAt b (off + 1) + 65536 * byteAt b (off + 2)

/-- Model of `buffer.readUInt32LE(offset)`. -/
def readUInt32LE (b : Bytes) (off : Nat) : Nat :=
  byteAt b off + 256 * byteAt b (off + 1) + 65536 * byteAt b (off + 2) +
    16777216 * byteAt b (off + 3)

/-- Model of `buffer.readUInt32BE(offset)`. -/
def readUInt32BE (b : Bytes) (off : Nat) : Nat :=
  16777216 * byteAt b off + 65536 * byteAt b (off + 1) +
    256 * byteAt b (off + 2) + byteAt b (off + 3)

/-- Model of `buffer.readInt32LE(offset)` (signed two's complement). -/
def readInt32LE (b : Bytes) (off : Nat) : Int :=
  let u := readUInt32LE b off
  if u < 2 ^ 31 then (u : Int) else (u : Int) - 2 ^ 32

/-- Model of `buffer.readInt32BE(offset)` (signed two's complement). -/
def readInt32BE (b : Bytes) (off : Nat) : Int :=
  let u := readUInt32BE b off
  if u < 2 ^ 31 then (u : Int) else (u : Int) - 2 ^ 32

/-- Little-endian bytes of a 16-bit value. -/
def le2 (n : Nat) : Bytes := [n % 256, n / 256 % 256]

/-- Little-endian bytes of a 24-bit value. -/
def le3 (n : Nat) : Bytes := [n % 256, n / 256 % 256, n / 65536 % 256]

/-- Little-endian bytes of a 32-bit value. -/
def le4 (n : Nat) : Bytes :=
  [n % 256, n / 256 % 256, n / 65536 % 256, n / 16777216 % 256]

/-- Little-endian bytes of a 64-bit value. -/
def le8 (n : Nat) : Bytes := le4 (n % 2 ^ 32) ++ le4 (n / 2 ^ 32)

/-- Big-endian bytes of a 32-bit value. -/
def be4 (n : Nat) : Bytes :=
  [n / 16777216 % 256, n / 65536 % 256, n / 256 % 256, n % 256]

/-- Two's-complement 32-bit little-endian bytes of a signed value
(model of `buffer.writeInt32LE`). -/
def int32le (n : Int) : Bytes := le4 ((n % 2 ^ 32).toNat)

/-- Two's-complement 64-bit little-endian bytes of a signed value
(model of `buffer.writeBigInt64LE`). -/
def int64le (n : Int) : Bytes := le8 ((n % 2 ^ 64).toNat)

end WireBytes

namespace MySqlPackets

open WireBytes

/-- Result shape of `readLengthEncodedInteger`. -/
structure LenEncResult where
  value : Nat
  bytesRead : Nat
  deriving DecidableEq, Repr

/-- Embedding of `readLengthEncodedInteger` from
`src/apps/mobile/lib/protocols/mysql/packets.ts`. -/
def readLengthEncodedInteger (buffer : Bytes) (offset : Nat) : LenEncResult :=
  let firstByte := byteAt buffer offset
  if firstByte < 0xfb then
    ⟨firstByte, 1⟩
  else if firstByte = 0xfc then
    ⟨readUInt16LE buffer (offset + 1), 3⟩
  else if firstByte = 0xfd then
    ⟨readUIntLE3 buffer (offset + 1), 4⟩
  else if firstByte = 0xfe then
    ⟨readUInt32LE buffer (offset + 1) +
      readUInt32LE buffer (offset + 5) * 0x100000000, 9⟩
  else
    ⟨0, 1⟩

/-- Modelled from the spec: the documented MySQL length-encoding rule
(first byte `< 0xFB` is the value itself; `0xFC` + 2 bytes LE;
`0xFD` + 3 bytes LE; `0xFE` + 8 bytes LE). The repository has no encoder
for length-encoded integers, so this side is taken from the spec text. -/
def lengthEncodeSpec (n : Nat) : Bytes :=
  if n < 0xfb then [n]
  else if n < 2 ^ 16 then 0xfc :: le2 n
  else if n < 2 ^ 24 then 0xfd :: le3 n
  else 0xfe :: le8 n

end MySqlPackets

namespace Tcp

open WireBytes

/-- State of a `TcpClient`: the accumulation buffer and the number of
queued `receive()` requests (the `messageQueue`). -/
structure TcpState where
  buffer : Bytes
  pendingReceives : Nat
  deriving DecidableEq, Repr

/-- Outcome of one `receive()` call: either the promise resolves at once
with data, or the request is pushed on the message queue. -/
inductive ReceiveOutcome where
  | resolved (data : Bytes) (st : TcpState)
  | queued (st : TcpState)
  deriving DecidableEq, Repr

/-- Embedding of `TcpClient.receive(expectedLength?)` from
`src/mobile/lib/tcp/socket.ts`: the guard is the JS condition
`expectedLength && this.buffer.length >= expectedLength`, so an absent or
zero `expectedLength` is falsy and the request is queued. -/
def receive (st : TcpState) (expectedLength : Option Nat) : ReceiveOutcome :=
  match expectedLength with
  | some n =>
    if n ≠ 0 ∧ n ≤ st.buffer.length then
      .resolved (st.buffer.take n) ⟨st.buffer.drop n, st.pendingReceives⟩
    else
      .queued ⟨st.buffer, st.pendingReceives + 1⟩
  | none => .queued ⟨st.buffer, st.pendingReceives + 1⟩

/-- Embedding of `TcpClient.processBuffer()`: while requests are queued and
the buffer is non-empty, the first queued request is resolved with the whole
buffer and the buffer is cleared. Returns the list of delivered chunks. -/
def processBuffer : TcpState → List Bytes × TcpState
  | ⟨buffer, 0⟩ => ([], ⟨buffer, 0⟩)
  | ⟨buffer, q + 1⟩ =>
    if buffer.length > 0 then
      let rest := processBuffer ⟨[], q⟩
      (buffer :: rest.1, rest.2)
    else
      ([], ⟨buffer, q + 1⟩)
termination_by st => st.pendingReceives

/-- Embedding of the socket `data` handler: append the chunk to the buffer,
then run `processBuffer`. -/
def onData (st : TcpState) (chunk : Bytes) : List Bytes × TcpState :=
  processBuffer ⟨st.buffer ++ chunk, st.pendingReceives⟩

end Tcp

namespace MySqlAuth

open WireBytes

/-- The `ssl` field of a `ConnectionConfig`: either a boolean or an
`SslConfig` object (only the fields relevant here are modelled). -/
inductive SslSetting where
  | boolean (b : Bool)
  | config (enabled : Bool) (rejectUnauthorized : Bool)
  deriving DecidableEq, Repr

/-- JavaScript truthiness of the `ssl` field: `false` is falsy, `true` and
every object (even `{enabled: false}`) are truthy. This is the test
`if (this.config.ssl)` in `handleCachingSha2FastAuth`. -/
def SslSetting.truthy : SslSetting → Bool
  | .boolean b => b
  | .config _ _ => true

/-- Whether the transport actually runs TLS for this setting: the composition
of `sslConfigToTlsOptions` with `TcpClient.connect`'s
`useTls = typeof tls === "boolean" ? tls : tls.enabled`. -/
def SslSetting.usesTls : SslSetting → Bool
  | .boolean b => b
  | .config enabled _ => enabled

/-- Result shape of `parseErrPacket` (the error message kept as raw bytes). -/
structure ErrPacket where
  errorCode : Nat
  sqlState : Bytes
  errorMessage : Bytes
  deriving DecidableEq, Repr

/-- Embedding of `parseErrPacket` from
`src/apps/mobile/lib/protocols/mysql/packets.ts`. -/
def parseErrPacket (payload : Bytes) : ErrPacket :=
  let errorCode := readUInt16LE payload 1
  if byteAt payload 3 = 0x23 then
    ⟨errorCode, (payload.drop 4).take 5, payload.drop 9⟩
  else
    ⟨errorCode, [], payload.drop 3⟩

/-- Errors the caching_sha2 sub-exchange can throw. -/
inductive AuthError where
  | requiresSsl
  | server (msg : Bytes)
  deriving DecidableEq, Repr

/-- Outcome of the sub-exchange, recording every packet payload sent:
success, a thrown error, or blocked waiting on a packet that never comes. -/
inductive AuthOutcome where
  | ok (sent : List Bytes)
  | fail (e : AuthError) (sent : List Bytes)
  | blocked (sent : List Bytes)
  deriving DecidableEq, Repr

/-- Embedding of `MySQLConnection.handleCachingSha2FastAuth(payload)` from
`src/apps/mobile/lib/protocols/mysql/packets.ts`. `incoming` is the list of
packet payloads the following `receivePacket()` calls will deliver. -/
def handleCachingSha2FastAuth (ssl : SslSetting) (password : Bytes)
    (payload : Bytes) (incoming : List Bytes) : AuthOutcome :=
  if 1 < payload.length ∧ byteAt payload 1 = 0x03 then
    match incoming with
    | [] => .blocked []
    | finalResult :: _ =>
      if byteAt finalResult 0 = 0xff then
        .fail (.server (parseErrPacket finalResult).errorMessage) []
      else
        .ok []
  else if 1 < payload.length ∧ byteAt payload 1 = 0x04 then
    if ssl.truthy then
      let passwordBuffer := password ++ [0]
      match incoming with
      | [] => .blocked [passwordBuffer]
      | finalResult :: _ =>
        if byteAt finalResult 0 = 0xff then
          .fail (.server (parseErrPacket finalResult).errorMessage)
            [passwordBuffer]
        else
          .ok [passwordBuffer]
    else
      .fail .requiresSsl []
  else
    .ok []

end MySqlAuth

namespace Scram

/-- JavaScript strings are modelled as lists of characters (UTF-16 units and
code points agree on everything these protocols exchange). -/
abbrev JStr := List Char

/-- The character list of a Lean string literal. -/
def str (s : String) : JStr := s.data

/-- Model of JS `string.split(sep)` for a one-character separator. -/
def splitOnChar (sep : Char) : JStr → List JStr
  | [] => [[]]
  | c :: rest =>
    if c = sep then
      [] :: splitOnChar sep rest
    else
      match splitOnChar sep rest with
      | [] => [[c]]
      | hd :: tl => (c :: hd) :: tl

/-- Model of JS `array.join(sep)` for a one-character separator. -/
def joinWith (sep : Char) : List JStr → JStr
  | [] => []
  | [x] => x
  | x :: xs => x ++ sep :: joinWith sep xs

/-- Model of one JS object property assignment `attrs[key] = value`:
overwrite in place if the key exists, else append. -/
def setAttr : List (JStr × JStr) → JStr → JStr → List (JStr × JStr)
  | [], k, v => [(k, v)]
  | (k0, v0) :: rest, k, v =>
    if k0 = k then (k, v) :: rest else (k0, v0) :: setAttr rest k v

/-- Model of the JS property read `attrs[key]`; `none` is `undefined`. -/
def getAttr (attrs : List (JStr × JStr)) (key : JStr) : Option JStr :=
  (attrs.find? (fun kv => kv.1 = key)).map (fun kv => kv.2)

/-- JS truthiness of a string-or-undefined value: `undefined` and the empty
string are falsy. -/
def optTruthy : Option JStr → Bool
  | none => false
  | some s => !s.isEmpty

/-- Embedding of `parseScramAttributes` (textually identical in
`src/mobile/lib/protocols/postgres/scram.ts` and
`src/apps/mobile/lib/protocols/mongodb/connection.ts`): split the message
on ",", split each part on "=", skip parts with an empty key or no "=",
take the remainder joined by "=" as the value; later assignments to the
same key overwrite earlier ones. -/
def parseScramAttributes (message : JStr) : List (JStr × JStr) :=
  (splitOnChar ',' message).foldl
    (fun attrs part =>
      match splitOnChar '=' part with
      | [] => attrs
      | key :: rest =>
        if key.isEmpty || rest.isEmpty then attrs
        else setAttr attrs key (joinWith '=' rest))
    []

/-- The SCRAM session record of
`src/mobile/lib/protocols/postgres/scram.ts`. -/
structure ScramSession where
  clientNonce : JStr
  clientFirstMessageBare : JStr
  clientFirstMessage : JStr
  expectedServerSignature : Option JStr
  deriving DecidableEq, Repr

/-- Embedding of `verifyScramServerFinal` from
`src/mobile/lib/protocols/postgres/scram.ts`. -/
def verifyScramServerFinal (session : ScramSession) (serverFinalMessage : JStr) :
    Except JStr Unit :=
  let attrs := parseScramAttributes serverFinalMessage
  if optTruthy (getAttr attrs (str "e")) then
    .error ((getAttr attrs (str "e")).getD [])
  else
    let serverSignature := getAttr attrs (str "v")
    if !optTruthy serverSignature || !optTruthy session.expectedServerSignature then
      .error (str "Invalid SCRAM server-final message")
    else if serverSignature ≠ session.expectedServerSignature then
      .error (str "SCRAM server signature mismatch")
    else
      .ok ()

/-- Embedding of the server-final check in `MongoDBConnection.authenticate`
(`src/apps/mobile/lib/protocols/mongodb/connection.ts`):
`if (parsedServerFinal.v !== serverSignature) throw ...`, where
`serverSignature` is the value remembered from `buildScramClientFinal`. -/
def mongoVerifyServerSignature (serverSignature : JStr)
    (serverFinalMessage : JStr) : Except JStr Unit :=
  let parsedServerFinal := parseScramAttributes serverFinalMessage
  if getAttr parsedServerFinal (str "v") ≠ some serverSignature then
    .error (str "Server signature verification failed")
  else
    .ok ()

end Scram

namespace PgMessages

open WireBytes
open Scram (JStr str)

/-- UTF-8 encoding of one character (the `TextEncoder` path of
`utf8ToBytes` in `src/mobile/lib/protocols/postgres/connection.ts`). -/
def utf8EncodeChar (c : Char) : Bytes :=
  let n := c.toNat
  if n < 0x80 then [n]
  else if n < 0x800 then [0xc0 + n / 64, 0x80 + n % 64]
  else if n < 0x10000 then
    [0xe0 + n / 4096, 0x80 + n / 64 % 64, 0x80 + n % 64]
  else
    [0xf0 + n / 262144, 0x80 + n / 4096 % 64, 0x80 + n / 64 % 64,
      0x80 + n % 64]

/-- Model of `utf8ToBytes` (UTF-8 encode a string). -/
def utf8ToBytes (s : JStr) : Bytes := (s.map utf8EncodeChar).flatten

/-- Embedding of `asciiToBytes`: `charCodeAt(i) & 0xff` per character. -/
def asciiToBytes (s : JStr) : Bytes := s.map (fun c => c.toNat % 256)

/-- Embedding of `add32`: JS `(a + b) | 0`, seen as a 32-bit pattern. -/
def add32 (a b : Nat) : Nat := (a + b) % 4294967296

/-- Bitwise NOT of a 32-bit pattern (JS `~b`). -/
def not32 (x : Nat) : Nat := 4294967295 - x

/-- Embedding of `rol`: JS `(num << count) | (num >>> (32 - count))`. -/
def rol (num count : Nat) : Nat :=
  (num <<< count) % 4294967296 ||| num >>> (32 - count)

/-- Embedding of `cmn`. -/
def cmn (q a b x s t : Nat) : Nat :=
  add32 (rol (add32 (add32 a q) (add32 x t)) s) b

/-- Embedding of `ff`. -/
def ff (a b c d x s t : Nat) : Nat :=
  cmn ((b &&& c) ||| (not32 b &&& d)) a b x s t

/-- Embedding of `gg`. -/
def gg (a b c d x s t : Nat) : Nat :=
  cmn ((b &&& d) ||| (c &&& not32 d)) a b x s t

/-- Embedding of `hh`. -/
def hh (a b c d x s t : Nat) : Nat :=
  cmn (b ^^^ c ^^^ d) a b x s t

/-- Embedding of `ii`. -/
def ii (a b c d x s t : Nat) : Nat :=
  cmn (c ^^^ (b ||| not32 d)) a b x s t

/-- Embedding of `md5Cycle`: one MD5 compression round over a 16-word
block. The signed JS constants are written as their 32-bit patterns. -/
def md5Cycle (state block : List Nat) : List Nat :=
  let x := fun j => block.getD j 0
  let s0 := state.getD 0 0
  let s1 := state.getD 1 0
  let s2 := state.getD 2 0
  let s3 := state.getD 3 0
  let a := s0
  let b := s1
  let c := s2
  let d := s3
  let a := ff a b c d (x 0) 7 3614090360
  let d := ff d a b c (x 1) 12 3905402710
  let c := ff c d a b (x 2) 17 606105819
  let b := ff b c d a (x 3) 22 3250441966
  let a := ff a b c d (x 4) 7 4118548399
  let d := ff d a b c (x 5) 12 1200080426
  let c := ff c d a b (x 6) 17 2821735955
  let b := ff b c d a (x 7) 22 4249261313
  let a := ff a b c d (x 8) 7 1770035416
  let d := ff d a b c (x 9) 12 2336552879
  let c := ff c d a b (x 10) 17 4294925233
  let b := ff b c d a (x 11) 22 2304563134
  let a := ff a b c d (x 12) 7 1804603682
  let d := ff d a b c (x 13) 12 4254626195
  let c := ff c d a b (x 14) 17 2792965006
  let b := ff b c d a (x 15) 22 1236535329
  let a := gg a b c d (x 1) 5 4129170786
  let d := gg d a b c (x 6) 9 3225465664
  let c := gg c d a b (x 11) 14 643717713
  let b := gg b c d a (x 0) 20 3921069994
  let a := gg a b c d (x 5) 5 3593408605
  let d := gg d a b c (x 10) 9 38016083
  let c := gg c d a b (x 15) 14 3634488961
  let b := gg b c d a (x 4) 20 3889429448
  let a := gg a b c d (x 9) 5 568446438
  let d := gg d a b c (x 14) 9 3275163606
  let c := gg c d a b (x 3) 14 4107603335
  let b := gg b c d a (x 8) 20 1163531501
  let a := gg a b c d (x 13) 5 2850285829
  let d := gg d a b c (x 2) 9 4243563512
  let c := gg c d a b (x 7) 14 1735328473
  let b := gg b c d a (x 12) 20 2368359562
  let a := hh a b c d (x 5) 4 4294588738
  let d := hh d a b c (x 8) 11 2272392833
  let c := hh c d a b (x 11) 16 1839030562
  let b := hh b c d a (x 14) 23 4259657740
  let a := hh a b c d (x 1) 4 2763975236
  let d := hh d a b c (x 4) 11 1272893353
  let c := hh c d a b (x 7) 16 4139469664
  let b := hh b c d a (x 10) 23 3200236656
  let a := hh a b c d (x 13) 4 681279174
  let d := hh d a b c (x 0) 11 3936430074
  let c := hh c d a b (x 3) 16 3572445317
  let b := hh b c d a (x 6) 23 76029189
  let a := hh a b c d (x 9) 4 3654602809
  let d := hh d a b c (x 12) 11 3873151461
  let c := hh c d a b (x 15) 16 530742520
  let b := hh b c d a (x 2) 23 3299628645
  let a := ii a b c d (x 0) 6 4096336452
  let d := ii d a b c (x 7) 10 1126891415
  let c := ii c d a b (x 14) 15 2878612391
  let b := ii b c d a (x 5) 21 4237533241
  let a := ii a b c d (x 12) 6 1700485571
  let d := ii d a b c (x 3) 10 2399980690
  let c := ii c d a b (x 10) 15 4293915773
  let b := ii b c d a (x 1) 21 2240044497
  let a := ii a b c d (x 8) 6 1873313359
  let d := ii d a b c (x 15) 10 4264355552
  let c := ii c d a b (x 6) 15 2734768916
  let b := ii b c d a (x 13) 21 1309151649
  let a := ii a b c d (x 4) 6 4149444226
  let d := ii d a b c (x 11) 10 3174756917
  let c := ii c d a b (x 2) 15 718787259
  let b := ii b c d a (x 9) 21 3951481745
  [add32 s0 a, add32 s1 b, add32 s2 c, add32 s3 d]

/-- MD5 padding as laid out in `md5Bytes`: the message, one 0x80 byte,
zeros, then the 64-bit little-endian bit length. -/
def md5Pad (bytes : Bytes) : Bytes :=
  let len := bytes.length
  let bitLen := len * 8
  let totalLen := (len + 8) / 64 * 64 + 64
  bytes ++ 0x80 :: (List.replicate (totalLen - len - 9) 0 ++
    (le4 (bitLen % 2 ^ 32) ++ le4 (bitLen / 2 ^ 32)))

/-- Split a byte list into 64-byte blocks; the first argument is fuel
(`chunks64` passes the list length, which always suffices). -/
def chunks64Aux : Nat → Bytes → List Bytes
  | _, [] => []
  | 0, _ => []
  | fuel + 1, l => l.take 64 :: chunks64Aux fuel (l.drop 64)

/-- Split a padded message into 64-byte blocks (the outer 64-byte-step
loop of `md5Bytes`). -/
def chunks64 (l : Bytes) : List Bytes := chunks64Aux l.length l

/-- The 16 little-endian 32-bit words of one block (the inner `block[j]`
assembly loop of `md5Bytes`). -/
def toWords16 (chunk : Bytes) : List Nat :=
  (List.range 16).map (fun j => readUInt32LE chunk (j * 4))

/-- One lowercase hexadecimal digit. -/
def hexChar (n : Nat) : Char :=
  if n < 10 then Char.ofNat (48 + n) else Char.ofNat (87 + n)

/-- Two lowercase hexadecimal digits of a byte: the value of
`(byte + 0x100).toString(16).slice(1)` in `wordToHex`. -/
def hexPair (b : Nat) : JStr := [hexChar (b / 16), hexChar (b % 16)]

/-- Embedding of `wordToHex`: hex of the four bytes of a word, little-endian
byte order. -/
def wordToHex (word : Nat) : JStr :=
  ((List.range 4).map (fun i => hexPair (word >>> (i * 8) &&& 255))).flatten

/-- Embedding of `md5Bytes` from
`src/mobile/lib/protocols/postgres/connection.ts`: pad, compress every
64-byte block, and print the four state words as lowercase hex. -/
def md5Bytes (bytes : Bytes) : JStr :=
  let state := ((chunks64 (md5Pad bytes)).map toWords16).foldl md5Cycle
    [1732584193, 4023233417, 2562383102, 271733878]
  wordToHex (state.getD 0 0) ++ wordToHex (state.getD 1 0) ++
    wordToHex (state.getD 2 0) ++ wordToHex (state.getD 3 0)

/-- Embedding of `md5Utf8`. -/
def md5Utf8 (input : JStr) : JStr := md5Bytes (utf8ToBytes input)

/-- Embedding of `createPasswordMessage`: `'p'`, the 32-bit big-endian
message length (excluding the tag byte), the UTF-8 password bytes, and a
terminating NUL. -/
def createPasswordMessage (password : JStr) : Bytes :=
  let passwordBytes := utf8ToBytes password
  [0x70] ++ be4 (4 + passwordBytes.length + 1) ++ passwordBytes ++ [0]

/-- Embedding of `createMd5PasswordMessage` from
`src/mobile/lib/protocols/postgres/connection.ts`. -/
def createMd5PasswordMessage (password username : JStr) (salt : Bytes) :
    Bytes :=
  let inner := md5Utf8 (password ++ username)
  let innerBytes := asciiToBytes inner
  let combined := innerBytes ++ salt
  let outer := md5Bytes combined
  createPasswordMessage (str "md5" ++ outer)

end PgMessages

namespace Frames

open WireBytes

/-- Model of JS `Array/Buffer.slice(start, end)` with possibly negative
indices (negative indices count from the end, results are clamped). -/
def jsSlice (l : Bytes) (start stop : Int) : Bytes :=
  let len : Int := l.length
  let s := if start < 0 then max (len + start) 0 else min start len
  let e := if stop < 0 then max (len + stop) 0 else min stop len
  (l.take e.toNat).drop s.toNat

/-- A parsed Postgres frame, as produced by `parseMessage`. -/
structure PgMessage where
  type : Char
  length : Int
  payload : Bytes
  deriving DecidableEq, Repr

/-- Embedding of `parseMessage` from
`src/mobile/lib/protocols/postgres/connection.ts` (messages module): needs
at least 5 bytes, reads the big-endian length at offset 1, and yields the
frame only when `length + 1` bytes are buffered. -/
def parseMessage (buffer : Bytes) : Option PgMessage :=
  if buffer.length < 5 then none
  else
    let type := Char.ofNat (byteAt buffer 0)
    let length := readInt32BE buffer 1
    if (buffer.length : Int) < length + 1 then none
    else some ⟨type, length, jsSlice buffer 5 (length + 1)⟩

/-- The receive-append-parse loop of `PostgresConnection.authenticate` /
`query`: take the next transport chunk, append it to the driver buffer, and
try `parseMessage`; on success drop the consumed frame from the buffer.
Returns `none` when the chunks run out with no complete frame (the driver
would keep waiting). -/
def pgReceiveLoop : Bytes → List Bytes → Option (PgMessage × Bytes)
  | _, [] => none
  | buffer, data :: rest =>
    match parseMessage (buffer ++ data) with
    | some message =>
      some (message,
        jsSlice (buffer ++ data) (message.length + 1) (buffer ++ data).length)
    | none => pgReceiveLoop (buffer ++ data) rest

/-- Embedding of `parsePacketHeader` from
`src/apps/mobile/lib/protocols/mysql/packets.ts`: 3-byte little-endian
length plus 1-byte sequence id, `none` below 4 bytes. -/
def parsePacketHeader (buffer : Bytes) : Option (Nat × Nat) :=
  if buffer.length < 4 then none
  else some (readUIntLE3 buffer 0, byteAt buffer 3)

/-- The body of `MySQLConnection.receivePacket`'s loop: if a header is
parsed and the whole packet is buffered, split out the payload, the
sequence id and the remaining buffer. -/
def tryExtractPacket (buffer : Bytes) : Option ((Bytes × Nat) × Bytes) :=
  match parsePacketHeader buffer with
  | some header =>
    if 4 + header.1 ≤ buffer.length then
      some (((buffer.take (4 + header.1)).drop 4, header.2),
        buffer.drop (4 + header.1))
    else none
  | none => none

/-- The parse-else-receive loop of `MySQLConnection.receivePacket`. -/
def receivePacketLoop : Bytes → List Bytes → Option ((Bytes × Nat) × Bytes)
  | buffer, [] => tryExtractPacket buffer
  | buffer, data :: rest =>
    match tryExtractPacket buffer with
    | some r => some r
    | none => receivePacketLoop (buffer ++ data) rest

/-- The frame-delimiting body of `MongoDBConnection.receiveResponse`'s
loop: once at least 4 bytes are buffered, read the little-endian message
length, and once the whole message is buffered split it from the remaining
buffer (section-kind checking and BSON decoding then work on the split-out
message). -/
def tryExtractMongoMessage (buffer : Bytes) : Option (Bytes × Bytes) :=
  if 4 ≤ buffer.length then
    let messageLength := readInt32LE buffer 0
    if messageLength ≤ (buffer.length : Int) then
      some (jsSlice buffer 0 messageLength,
        jsSlice buffer messageLength buffer.length)
    else none
  else none

/-- The parse-else-receive loop of `MongoDBConnection.receiveResponse`. -/
def mongoReceiveLoop : Bytes → List Bytes → Option (Bytes × Bytes)
  | buffer, [] => tryExtractMongoMessage buffer
  | buffer, data :: rest =>
    match tryExtractMongoMessage buffer with
    | some r => some r
    | none => mongoReceiveLoop (buffer ++ data) rest

/-- One complete Postgres frame: at least 5 bytes and the length field
counts exactly the bytes after the tag. -/
def pgComplete (f : Bytes) : Prop :=
  5 ≤ f.length ∧ readInt32BE f 1 = (f.length : Int) - 1

/-- One complete MySQL packet: at least 4 bytes and the 3-byte length
counts exactly the payload. -/
def myComplete (f : Bytes) : Prop :=
  4 ≤ f.length ∧ readUIntLE3 f 0 = f.length - 4

/-- One complete Mongo message: at least 4 bytes and the length field is
the total message length. -/
def moComplete (f : Bytes) : Prop :=
  4 ≤ f.length ∧ readInt32LE f 0 = (f.length : Int)

end Frames

namespace Pool

/-- The `ConnectionConfig` record from `src/mobile/lib/types.ts` (the
fields the pool and drivers consult; `ssl` reuses the setting model). -/
structure ConnectionConfig where
  id : String
  name : String
  dbType : String
  host : String
  port : Nat
  database : String
  username : String
  password : String
  ssl : MySqlAuth.SslSetting
  deriving DecidableEq, Repr

/-- Embedding of `ConnectionPool.getPoolKey`:
`type://host:port/database@username`. -/
def getPoolKey (config : ConnectionConfig) : String :=
  config.dbType ++ "://" ++ config.host ++ ":" ++ toString config.port ++
    "/" ++ config.database ++ "@" ++ config.username

/-- A `PooledConnection` entry; the connection object is identified by a
numeric id, and `createdWith` records the config the factory received when
the connection was created and authenticated. -/
structure PooledConnection where
  connection : Nat
  createdWith : ConnectionConfig
  lastUsed : Nat
  inUse : Bool
  deriving DecidableEq, Repr

/-- The pool map `pools : Map<string, PooledConnection[]>` as an
association list. -/
abbrev PoolMap := List (String × List PooledConnection)

/-- Model of `this.pools.get(key)` followed by the `?? []` initialisation
in `acquire`. -/
def poolOf (pools : PoolMap) (key : String) : List PooledConnection :=
  ((pools.find? (fun kv => kv.1 = key)).map (fun kv => kv.2)).getD []

/-- Model of `this.pools.set(key, pool)`: replace the entry in place or
append it. -/
def setPool (pools : PoolMap) (key : String) (pool : List PooledConnection) :
    PoolMap :=
  match pools with
  | [] => [(key, pool)]
  | kv :: rest =>
    if kv.1 = key then (kv.1, pool) :: rest else kv :: setPool rest key pool

/-- Model of `pool.find((pc) => !pc.inUse)` followed by marking the found
entry `inUse = true, lastUsed = now`: returns the found connection and the
updated pool. -/
def markFirstAvailable (now : Nat) :
    List PooledConnection → Option (Nat × List PooledConnection)
  | [] => none
  | pc :: rest =>
    if pc.inUse then
      match markFirstAvailable now rest with
      | some (c, rest2) => some (c, pc :: rest2)
      | none => none
    else
      some (pc.connection, ⟨pc.connection, pc.createdWith, now, true⟩ :: rest)

/-- Outcome of one `acquire` call up to the point where it either returns a
connection or enters `waitForAvailable`. -/
inductive AcquireStep where
  | reused (connection : Nat) (pools : PoolMap)
  | created (connection : Nat) (pools : PoolMap)
  | exhaustedWait (poolKey : String)
  deriving DecidableEq, Repr

/-- Embedding of `ConnectionPool.acquire(config, factory)` from the pool
module (`src/unnamed/part_001`): reuse the first idle entry of the pool
keyed by the config; else, when under `maxSize`, create a connection via
the factory (modelled by the fresh id `freshConn`, recorded together with
the config the factory received), connect it and add it; else fall through
to `waitForAvailable`. -/
def acquire (config : ConnectionConfig) (pools : PoolMap) (maxSize now freshConn : Nat) :
    AcquireStep :=
  let poolKey := getPoolKey config
  let pool := poolOf pools poolKey
  match markFirstAvailable now pool with
  | some (c, pool2) => .reused c (setPool pools poolKey pool2)
  | none =>
    if pool.length < maxSize then
      .created freshConn
        (setPool pools poolKey (pool ++ [⟨freshConn, config, now, true⟩]))
    else
      .exhaustedWait poolKey

/-- Outcome of `waitForAvailable`: a connection, the pool-exhausted
rejection, or still pending when the supplied snapshots run out. -/
inductive WaitOutcome where
  | acquired (connection : Nat) (pool : List PooledConnection)
  | exhausted
  | pending
  deriving DecidableEq, Repr

/-- Embedding of `ConnectionPool.waitForAvailable(pool)`: a 50ms interval
timer; at each tick it first looks for an idle entry (marking and resolving
it), and otherwise rejects once more than `acquireTimeoutMs` has elapsed
since `startTime`. `snapshots` gives the pool contents observed at each
tick (the pool is mutated concurrently by `release`), and `tick` counts the
ticks already elapsed. -/
def waitForAvailable (acquireTimeoutMs startTime : Nat) :
    Nat → List (List PooledConnection) → WaitOutcome
  | _, [] => .pending
  | tick, pool :: rest =>
    let now := startTime + 50 * (tick + 1)
    match markFirstAvailable now pool with
    | some (c, pool2) => .acquired c pool2
    | none =>
      if acquireTimeoutMs < now - startTime then .exhausted
      else waitForAvailable acquireTimeoutMs startTime (tick + 1) rest

/-- Model of marking one entry idle in `ConnectionPool.release`:
`pool.find((pc) => pc.connection === connection)` then
`inUse = false, lastUsed = now`. -/
def releaseMark (connection now : Nat) :
    List PooledConnection → List PooledConnection
  | [] => []
  | pc :: rest =>
    if pc.connection = connection then
      ⟨pc.connection, pc.createdWith, now, false⟩ :: rest
    else
      pc :: releaseMark connection now rest

/-- Embedding of `ConnectionPool.release(config, connection)`. -/
def release (config : ConnectionConfig) (connection : Nat) (pools : PoolMap)
    (now : Nat) : PoolMap :=
  let poolKey := getPoolKey config
  match pools.find? (fun kv => kv.1 = poolKey) with
  | none => pools
  | some _ => setPool pools poolKey (releaseMark connection now (poolOf pools poolKey))

end Pool

namespace MySqlQuery

open WireBytes

/-- Model of `readLengthEncodedString`: the string bytes and the total
bytes consumed. -/
def readLengthEncodedString (buffer : Bytes) (offset : Nat) : Bytes × Nat :=
  let r := MySqlPackets.readLengthEncodedInteger buffer offset
  ((buffer.take (offset + r.bytesRead + r.value)).drop (offset + r.bytesRead),
    r.bytesRead + r.value)

/-- The `ColumnDefinition` record of the MySQL packets module (string
fields kept as raw bytes). -/
structure ColumnDefinition where
  catalog : Bytes
  schema : Bytes
  table : Bytes
  orgTable : Bytes
  name : Bytes
  orgName : Bytes
  characterSet : Nat
  columnLength : Nat
  columnType : Nat
  flags : Nat
  decimals : Nat
  deriving DecidableEq, Repr

/-- Embedding of `parseColumnDefinition` from
`src/apps/mobile/lib/protocols/mysql/packets.ts`: six length-encoded
strings, one skipped byte, then the fixed-width fields. -/
def parseColumnDefinition (payload : Bytes) : ColumnDefinition :=
  let r1 := readLengthEncodedString payload 0
  let o1 := r1.2
  let r2 := readLengthEncodedString payload o1
  let o2 := o1 + r2.2
  let r3 := readLengthEncodedString payload o2
  let o3 := o2 + r3.2
  let r4 := readLengthEncodedString payload o3
  let o4 := o3 + r4.2
  let r5 := readLengthEncodedString payload o4
  let o5 := o4 + r5.2
  let r6 := readLengthEncodedString payload o5
  let o6 := o5 + r6.2 + 1
  ⟨r1.1, r2.1, r3.1, r4.1, r5.1, r6.1,
    readUInt16LE payload o6, readUInt32LE payload (o6 + 2),
    byteAt payload (o6 + 6), readUInt16LE payload (o6 + 7),
    byteAt payload (o6 + 9)⟩

/-- The `OkPacket` record (info kept as raw bytes). -/
structure OkPacket where
  affectedRows : Nat
  lastInsertId : Nat
  statusFlags : Nat
  warningCount : Nat
  info : Bytes
  deriving DecidableEq, Repr

/-- Embedding of `parseOkPacket` from the MySQL packets module. -/
def parseOkPacket (payload : Bytes) : OkPacket :=
  let r1 := MySqlPackets.readLengthEncodedInteger payload 1
  let o1 := 1 + r1.bytesRead
  let r2 := MySqlPackets.readLengthEncodedInteger payload o1
  let o2 := o1 + r2.bytesRead
  ⟨r1.value, r2.value, readUInt16LE payload o2, readUInt16LE payload (o2 + 2),
    if o2 + 4 < payload.length then payload.drop (o2 + 4) else []⟩

/-- Embedding of the per-column loop of `parseResultSetRow`:
`0xFB` is the NULL sentinel, anything else a length-encoded string. -/
def parseResultSetRowAux (payload : Bytes) (offset : Nat) :
    Nat → List (Option Bytes)
  | 0 => []
  | n + 1 =>
    if byteAt payload offset = 0xfb then
      none :: parseResultSetRowAux payload (offset + 1) n
    else
      let r := readLengthEncodedString payload offset
      some r.1 :: parseResultSetRowAux payload (offset + r.2) n

/-- Embedding of `parseResultSetRow`. -/
def parseResultSetRow (payload : Bytes) (columnCount : Nat) :
    List (Option Bytes) :=
  parseResultSetRowAux payload 0 columnCount

/-- Errors a `query()` call can throw. -/
inductive QueryError where
  | notConnected
  | server (msg : Bytes)
  | blocked
  deriving DecidableEq, Repr

/-- The driver `ConnectionState` (the error state carries what was
thrown). -/
inductive ConnState where
  | disconnected
  | connecting
  | connected
  | error (e : QueryError)
  deriving DecidableEq, Repr

/-- The `QueryResult` of a MySQL query, at the byte level: column names
and types from the column definitions, rows as per-column optional values,
and `rowCount` (the source also carries the wall-clock `executionTime` and
the first SQL word as `command`, neither of which is modelled). -/
structure QueryResult where
  columnNames : List Bytes
  columnTypes : List Nat
  rows : List (List (Option Bytes))
  rowCount : Nat
  deriving DecidableEq, Repr

/-- The row loop of `MySQLConnection.query`: packets until an EOF marker
(`0xFE` with payload shorter than 9 bytes), a server error aborting the
query, or running out of packets (the driver would keep waiting). The
connection state is threaded unchanged, as `query` never assigns
`this.state`. -/
def readRows (st : ConnState) (cols : List ColumnDefinition) :
    List Bytes → List (List (Option Bytes)) →
      ConnState × Except QueryError QueryResult
  | [], _ => (st, .error .blocked)
  | rowPacket :: rest, rows =>
    if byteAt rowPacket 0 = 0xfe ∧ rowPacket.length < 9 then
      (st, .ok ⟨cols.map (fun c => c.name), cols.map (fun c => c.columnType),
        rows, rows.length⟩)
    else if byteAt rowPacket 0 = 0xff then
      (st, .error (.server (MySqlAuth.parseErrPacket rowPacket).errorMessage))
    else
      readRows st cols rest
        (rows ++ [parseResultSetRow rowPacket cols.length])

/-- The column-definition loop of `MySQLConnection.query`, followed by the
EOF/OK marker packet. -/
def readColumns (st : ConnState) :
    Nat → List Bytes → List ColumnDefinition →
      ConnState × Except QueryError QueryResult
  | 0, packets, cols =>
    match packets with
    | [] => (st, .error .blocked)
    | eofOrOk :: rest =>
      if byteAt eofOrOk 0 = 0xff then
        (st, .error (.server (MySqlAuth.parseErrPacket eofOrOk).errorMessage))
      else
        readRows st cols rest []
  | n + 1, packets, cols =>
    match packets with
    | [] => (st, .error .blocked)
    | colPacket :: rest =>
      readColumns st n rest (cols ++ [parseColumnDefinition colPacket])

/-- Embedding of `MySQLConnection.query(sql)` from
`src/apps/mobile/lib/protocols/mysql/packets.ts`, at packet granularity:
`packets` are the payloads `receivePacket()` will deliver. The pair's
first component is the driver state after the call — the source assigns
`this.state` nowhere in `query`, so the state given is the state
returned, on success and on every error path alike. -/
def query (st : ConnState) (isConnected : Bool) (packets : List Bytes) :
    ConnState × Except QueryError QueryResult :=
  if isConnected = false then
    (st, .error .notConnected)
  else
    match packets with
    | [] => (st, .error .blocked)
    | firstPacket :: rest =>
      let firstByte := byteAt firstPacket 0
      if firstByte = 0xff then
        (st, .error (.server (MySqlAuth.parseErrPacket firstPacket).errorMessage))
      else if firstByte = 0x00 then
        let ok := parseOkPacket firstPacket
        (st, .ok ⟨[], [], [], ok.affectedRows⟩)
      else
        readColumns st (MySqlPackets.readLengthEncodedInteger firstPacket 0).value
          rest []

/-- Embedding of the `connect()` try/catch shared by the MySQL and
Postgres drivers: the state is set to `connecting`, and the catch block
sets `error` with the thrown message while success sets `connected`. -/
def connectRun (r : Except QueryError Unit) : ConnState :=
  match r with
  | .ok _ => .connected
  | .error e => .error e

end MySqlQuery

namespace WireBytes

/-- Model of `buffer.readUInt32LE(offset) + buffer.readUInt32LE(offset+4) * 2^32`
composition used for 64-bit reads. -/
def readUInt64LE (b : Bytes) (off : Nat) : Nat :=
  readUInt32LE b off + 4294967296 * readUInt32LE b (off + 4)

/-- Model of `buffer.readBigInt64LE(offset)` (signed two's complement). -/
def readInt64LE (b : Bytes) (off : Nat) : Int :=
  let u := readUInt64LE b off
  if u < 2 ^ 63 then (u : Int) else (u : Int) - 2 ^ 64

/-- Model of JS `buffer.indexOf(value, start)`: the absolute index of the
first occurrence at or after `start`, or -1. -/
def jsIndexOf (l : Bytes) (v : Nat) (start : Nat) : Int :=
  match (l.drop start).indexOf? v with
  | some k => ((start + k : Nat) : Int)
  | none => -1

end WireBytes

namespace Bson

open WireBytes

/-- The tagged BSON value universe of the codec in
`src/apps/mobile/lib/protocols/mongodb/bson.ts`. JS has a single `number`
type; the model splits it by the branch `encodeElement` takes:
`vint n` is an integer-valued number (the `Number.isInteger` branch; in
int32 range it is stored as INT32, decoded INT64/TIMESTAMP values also
land here), and `vdouble bits` is any other number, identified by the
8-byte little-endian IEEE-754 pattern that `writeDoubleLE` stores and
`readDoubleLE` reads back. Strings and keys are their UTF-8 bytes;
`objectId` is the wrapped 12-byte buffer; documents are ordered key-value
lists (JS object insertion order). -/
inductive BsonValue where
  | vnull
  | vbool (b : Bool)
  | vint (n : Int)
  | vdouble (bits : Bytes)
  | vstr (s : Bytes)
  | vdate (ms : Int)
  | objectId (bytes : Bytes)
  | vbinary (data : Bytes)
  | varray (items : List BsonValue)
  | vdoc (entries : List (Bytes × BsonValue))

/-- Decimal digit bytes of an index, with fuel (`natKey` supplies enough):
the UTF-8 bytes of JS `index.toString()` used as array keys. -/
def natKeyAux : Nat → Nat → Bytes
  | 0, _ => []
  | fuel + 1, n => if n < 10 then [48 + n] else natKeyAux fuel (n / 10) ++ [48 + n % 10]

/-- The UTF-8 bytes of `index.toString()`. -/
def natKey (n : Nat) : Bytes := natKeyAux (n + 1) n

/-- The numeric value of a decimal digit byte string (used to prove
`natKey` injective). -/
def digitsVal (s : Bytes) : Nat := s.foldl (fun acc b => acc * 10 + (b - 48)) 0

/-- IEEE-754 binary64 bit pattern (8 bytes little-endian) of an
integer-valued number: what `writeDoubleLE` stores when `encodeElement`
takes the double branch on an integer outside int32 range (round to
nearest, ties to even; overflow to infinity). Only integers ever reach
this in the source, since non-integer numbers are modelled by their
pattern directly. -/
def f64OfIntBits (n : Int) : Bytes :=
  if n = 0 then le8 0
  else
    let sign : Nat := if n < 0 then 1 else 0
    let m := n.natAbs
    let e := Nat.log2 m
    if e ≤ 52 then
      le8 (sign * 2 ^ 63 + (e + 1023) * 2 ^ 52 + (m * 2 ^ (52 - e) - 2 ^ 52))
    else
      let shift := e - 52
      let q := m / 2 ^ shift
      let r := m % 2 ^ shift
      let half := 2 ^ (shift - 1)
      let q2 := if half < r ∨ (r = half ∧ q % 2 = 1) then q + 1 else q
      let e2 := if q2 = 2 ^ 53 then e + 1 else e
      let q3 := if q2 = 2 ^ 53 then 2 ^ 52 else q2
      if 1024 ≤ e2 then le8 (sign * 2 ^ 63 + 2047 * 2 ^ 52)
      else le8 (sign * 2 ^ 63 + (e2 + 1023) * 2 ^ 52 + (q3 - 2 ^ 52))

/-- The type byte `encodeElement` writes for a value (for numbers, INT32
exactly when the value is an integer in `[-2147483648, 2147483647]`,
DOUBLE otherwise). -/
def tagOf : BsonValue → Nat
  | .vnull => 0x0a
  | .vbool _ => 0x08
  | .vint n => if -2147483648 ≤ n ∧ n ≤ 2147483647 then 0x10 else 0x01
  | .vdouble _ => 0x01
  | .vstr _ => 0x02
  | .vdate _ => 0x09
  | .objectId _ => 0x07
  | .vbinary _ => 0x05
  | .varray _ => 0x04
  | .vdoc _ => 0x03

/-- The document framing of `encodeBson`: 4-byte little-endian total
length (4 + content + trailing NUL), the content, and the trailing 0x00. -/
def wrapDoc (content : Bytes) : Bytes :=
  int32le ((4 + content.length + 1 : Nat) : Int) ++ content ++ [0]

mutual

/-- The type-specific payload each `encodeElement` branch writes after the
type byte and the NUL-terminated key, branch by branch in source order:
null (nothing), boolean (1 byte), number (int32 LE when an integer in
int32 range, else the 8-byte double pattern), string (int32 length prefix
counting the trailing NUL, bytes, NUL), Date (int64 LE milliseconds),
ObjectId (`toBuffer()` copied into 12 zeroed bytes), Buffer (int32 length,
subtype 0x00, bytes), array (the document encoding of the index-keyed
entries), document (recursive document encoding). -/
def encValuePayload : BsonValue → Bytes
  | .vnull => []
  | .vbool b => [if b then 1 else 0]
  | .vint n =>
    if -2147483648 ≤ n ∧ n ≤ 2147483647 then int32le n else f64OfIntBits n
  | .vdouble bits => bits
  | .vstr s => int32le ((s.length + 1 : Nat) : Int) ++ s ++ [0]
  | .vdate ms => int64le ms
  | .objectId b => b.take 12 ++ List.replicate (12 - b.length) 0
  | .vbinary d => int32le ((d.length : Nat) : Int) ++ [0] ++ d
  | .varray items => wrapDoc (encodeIndexedItems 0 items)
  | .vdoc entries => wrapDoc (encodeElements entries)

/-- The concatenated elements of a document, in entry order
(`Object.entries` iteration in `encodeBson`); each element is the type
byte, the NUL-terminated key and the value payload of `encodeElement`. -/
def encodeElements : List (Bytes × BsonValue) → Bytes
  | [] => []
  | (k, v) :: rest =>
    ([tagOf v] ++ k ++ [0] ++ encValuePayload v) ++ encodeElements rest

/-- The concatenated elements of the array document built by the
`value.forEach` loop: item `i` keyed by `i.toString()`. -/
def encodeIndexedItems (idx : Nat) : List BsonValue → Bytes
  | [] => []
  | v :: rest =>
    ([tagOf v] ++ natKey idx ++ [0] ++ encValuePayload v) ++
      encodeIndexedItems (idx + 1) rest

end

/-- Embedding of `encodeElement`: type byte, key bytes, NUL, payload. -/
def encodeElement (key : Bytes) (v : BsonValue) : Bytes :=
  [tagOf v] ++ key ++ [0] ++ encValuePayload v

/-- Embedding of `encodeBson` from
`src/apps/mobile/lib/protocols/mongodb/bson.ts`. -/
def encodeBson (entries : List (Bytes × BsonValue)) : Bytes :=
  wrapDoc (encodeElements entries)

/-- The index-keyed entry list of the `arrayDoc` that `encodeElement`
builds for an array. -/
def indexEntries (idx : Nat) : List BsonValue → List (Bytes × BsonValue)
  | [] => []
  | v :: rest => (natKey idx, v) :: indexEntries (idx + 1) rest

/-- Model of the JS object assignment `doc[key] = value` in `decodeBson`:
overwrite in place if the key exists (keeping its position), else append. -/
def setEntry : List (Bytes × BsonValue) → Bytes → BsonValue →
    List (Bytes × BsonValue)
  | [], k, v => [(k, v)]
  | (k0, v0) :: rest, k, v =>
    if k0 = k then (k0, v) :: rest else (k0, v0) :: setEntry rest k v

/-- Decode errors: the `Unsupported BSON type` throw, plus fuel exhaustion
(an artifact of modelling the source's unbounded loops with fuel; the
round-trip theorems always supply enough fuel). -/
inductive DecodeError where
  | unsupportedType (t : Nat)
  | outOfFuel
  deriving DecidableEq, Repr

mutual

/-- The `while (pos < end)` loop of `decodeBson`: read the type byte, the
NUL-terminated key (via `buffer.indexOf(0, pos)`), decode the value, store
it in the document object, continue at the value's end. `endPos` is
`offset + docLength - 1` and `doc` the entries accumulated so far. -/
def decodeLoop : Nat → Bytes → Int → Nat → List (Bytes × BsonValue) →
    Except DecodeError (List (Bytes × BsonValue))
  | 0, _, _, _, _ => .error .outOfFuel
  | fuel + 1, buffer, endPos, pos, doc =>
    if (pos : Int) < endPos then
      let type := byteAt buffer pos
      let pos1 := pos + 1
      let keyEnd := jsIndexOf buffer 0 pos1
      let key := (buffer.take keyEnd.toNat).drop pos1
      let pos2 := keyEnd.toNat + 1
      match decodeValue fuel buffer pos2 type with
      | .error e => .error e
      | .ok (value, newPos) =>
        decodeLoop fuel buffer endPos newPos (setEntry doc key value)
    else
      .ok doc

/-- Embedding of `decodeValue` from the BSON module, case by case in
source order (int32-read lengths are clamped to `Nat` — negative lengths,
which no encoder output contains, would misbehave in the source as well).
Unknown type bytes are the `Unsupported BSON type` error. -/
def decodeValue : Nat → Bytes → Nat → Nat →
    Except DecodeError (BsonValue × Nat)
  | fuel, buffer, pos, type =>
    if type = 0x01 then
      .ok (.vdouble ((buffer.take (pos + 8)).drop pos), pos + 8)
    else if type = 0x02 then
      let length := (readInt32LE buffer pos).toNat
      .ok (.vstr ((buffer.take (pos + 4 + length - 1)).drop (pos + 4)),
        pos + 4 + length)
    else if type = 0x03 then
      match fuel with
      | 0 => .error .outOfFuel
      | g + 1 =>
        let docLength := (readInt32LE buffer pos).toNat
        match decodeLoop g buffer ((pos : Int) + readInt32LE buffer pos - 1)
            (pos + 4) [] with
        | .error e => .error e
        | .ok doc => .ok (.vdoc doc, pos + docLength)
    else if type = 0x04 then
      match fuel with
      | 0 => .error .outOfFuel
      | g + 1 =>
        let docLength := (readInt32LE buffer pos).toNat
        match decodeLoop g buffer ((pos : Int) + readInt32LE buffer pos - 1)
            (pos + 4) [] with
        | .error e => .error e
        | .ok arrayDoc =>
          .ok (.varray (arrayDoc.map (fun kv => kv.2)), pos + docLength)
    else if type = 0x05 then
      let length := (readInt32LE buffer pos).toNat
      .ok (.vbinary ((buffer.take (pos + 5 + length)).drop (pos + 5)),
        pos + 5 + length)
    else if type = 0x07 then
      .ok (.objectId ((buffer.take (pos + 12)).drop pos), pos + 12)
    else if type = 0x08 then
      .ok (.vbool (byteAt buffer pos = 1), pos + 1)
    else if type = 0x09 then
      .ok (.vdate (readInt64LE buffer pos), pos + 8)
    else if type = 0x0a then
      .ok (.vnull, pos)
    else if type = 0x10 then
      .ok (.vint (readInt32LE buffer pos), pos + 4)
    else if type = 0x12 then
      .ok (.vint (readInt64LE buffer pos), pos + 8)
    else if type = 0x11 then
      .ok (.vint (readInt64LE buffer pos), pos + 8)
    else
      .error (.unsupportedType type)

end

/-- The `decodeBson(buffer, offset)` entry point: read the length header
and run the element loop from `offset + 4` to `offset + docLength - 1`. -/
def decodeBsonAux (fuel : Nat) (buffer : Bytes) (offset : Nat) :
    Except DecodeError (List (Bytes × BsonValue)) :=
  decodeLoop fuel buffer ((offset : Int) + readInt32LE buffer offset - 1)
    (offset + 4) []

/-- Embedding of `decodeBson` from
`src/apps/mobile/lib/protocols/mongodb/bson.ts`, with fuel ample for any
parse that terminates within the buffer. -/
def decodeBson (buffer : Bytes) (offset : Nat) :
    Except DecodeError (List (Bytes × BsonValue)) :=
  decodeBsonAux (buffer.length + 1) buffer offset

/-- Pairwise distinctness of a key list (JS objects cannot carry duplicate
keys). -/
def nodupKeys : List Bytes → Bool
  | [] => true
  | k :: rest => !rest.contains k && nodupKeys rest

mutual

/-- The values the encoder supports, per the claim: booleans and null;
integers in int32 range; doubles as an 8-byte pattern; strings whose
length header fits int32; dates in int64 range; 12-byte ObjectIds;
binaries whose length fits int32; arrays and documents whose own encoded
length fits int32, with NUL-free, duplicate-free keys, recursively. -/
def wfValue : BsonValue → Bool
  | .vnull => true
  | .vbool _ => true
  | .vint n => decide (-2147483648 ≤ n) && decide (n ≤ 2147483647)
  | .vdouble bits => bits.length == 8
  | .vstr s => decide (s.length + 1 < 2 ^ 31)
  | .vdate ms => decide (-(2 ^ 63) ≤ ms) && decide (ms < 2 ^ 63)
  | .objectId b => b.length == 12
  | .vbinary d => decide (d.length < 2 ^ 31)
  | .varray items =>
    wfItems items && decide ((encodeIndexedItems 0 items).length + 5 < 2 ^ 31)
  | .vdoc entries =>
    wfEntries entries && nodupKeys (entries.map (fun kv => kv.1)) &&
      decide ((encodeElements entries).length + 5 < 2 ^ 31)

/-- Well-formedness of document entries: NUL-free keys and well-formed
values. -/
def wfEntries : List (Bytes × BsonValue) → Bool
  | [] => true
  | (k, v) :: rest => !k.contains 0 && wfValue v && wfEntries rest

/-- Well-formedness of array items. -/
def wfItems : List BsonValue → Bool
  | [] => true
  | v :: rest => wfValue v && wfItems rest

end

/-- Well-formedness of a whole document handed to `encodeBson`. -/
def wfDoc (entries : List (Bytes × BsonValue)) : Bool :=
  wfEntries entries && nodupKeys (entries.map (fun kv => kv.1)) &&
    decide ((encodeElements entries).length + 5 < 2 ^ 31)

mutual

/-- Fuel sufficient to decode a value (1 per document nesting level). -/
def needValue : BsonValue → Nat
  | .vdoc entries => 1 + needEntries entries
  | .varray items => 1 + needItems items
  | _ => 0

/-- Fuel sufficient for the element loop over these entries. -/
def needEntries : List (Bytes × BsonValue) → Nat
  | [] => 1
  | (_, v) :: rest => 1 + needValue v + needEntries rest

/-- Fuel sufficient for the element loop over indexed array items. -/
def needItems : List BsonValue → Nat
  | [] => 1
  | v :: rest => 1 + needValue v + needItems rest

end

mutual

/-- Nesting size of a value, the induction measure for the round-trip
proof. -/
def sizeV : BsonValue → Nat
  | .vdoc entries => 1 + sizeE entries
  | .varray items => 1 + sizeL items
  | _ => 0

/-- Nesting size of document entries. -/
def sizeE : List (Bytes × BsonValue) → Nat
  | [] => 0
  | (_, v) :: rest => 1 + sizeV v + sizeE rest

/-- Nesting size of array items. -/
def sizeL : List BsonValue → Nat
  | [] => 0
  | v :: rest => 1 + sizeV v + sizeL rest

end

end Bson

/-! ## Theorems -/

theorem WireBytes.byteAt_append_right (pre l : WireBytes.Bytes) (i : Nat) :
    WireBytes.byteAt (pre ++ l) (pre.length + i) = WireBytes.byteAt l i := by
  unfold WireBytes.byteAt
  rw [List.getD_append_right pre l 0 (pre.length + i) (Nat.le_add_right _ _)]
  simp

theorem WireBytes.byteAt_append_left (l post : WireBytes.Bytes) (i : Nat)
    (h : i < l.length) :
    WireBytes.byteAt (l ++ post) i = WireBytes.byteAt l i := by
  unfold WireBytes.byteAt
  exact List.getD_append l post 0 i h

/-- Reading inside the middle section of a three-part concatenation. -/
theorem WireBytes.byteAt_middle (pre l post : WireBytes.Bytes) (i : Nat)
    (h : i < l.length) :
    WireBytes.byteAt (pre ++ l ++ post) (pre.length + i) = WireBytes.byteAt l i := by
  rw [List.append_assoc, WireBytes.byteAt_append_right pre (l ++ post) i,
    WireBytes.byteAt_append_left l post i h]

/-- An empty buffer makes `processBuffer` deliver nothing. -/
theorem Tcp.processBuffer_nil (q : Nat) :
    Tcp.processBuffer ⟨[], q⟩ = ([], ⟨[], q⟩) := by
  cases q <;> simp [Tcp.processBuffer]

/-- C7 counterexample: with the buffer holding one byte and no expected
length, `receive()` is queued unresolved (the buffer is untouched), rather
than resolving immediately with the buffered byte as the claim states. -/
theorem tcp_receive_buffered_queues_counterexample :
    Tcp.receive ⟨[0x42], 0⟩ none = .queued ⟨[0x42], 1⟩ ∧
    Tcp.receive ⟨[0x42], 0⟩ none ≠ .resolved [0x42] ⟨[], 0⟩ := by
  constructor <;> decide

/-- C7 as amended: a `receive(n)` call with `0 < n` bytes requested and at
least `n` bytes buffered resolves immediately with exactly the first `n`
buffered bytes, leaving the remainder buffered; a `receive()` call without
an expected length is always queued; and when a data chunk arrives while a
request is queued, the entire accumulated buffer is delivered to it as one
chunk and the buffer is left empty. -/
theorem tcp_receive_contract (st : Tcp.TcpState) (n : Nat) (chunk : WireBytes.Bytes)
    (hn : 0 < n) (hlen : n ≤ st.buffer.length) (hq : 0 < st.pendingReceives)
    (hne : st.buffer ++ chunk ≠ []) :
    Tcp.receive st (some n) =
      .resolved (st.buffer.take n) ⟨st.buffer.drop n, st.pendingReceives⟩ ∧
    Tcp.receive st none = .queued ⟨st.buffer, st.pendingReceives + 1⟩ ∧
    Tcp.onData st chunk = ([st.buffer ++ chunk], ⟨[], st.pendingReceives - 1⟩) := by
  obtain ⟨buf, q⟩ := st
  simp only at hlen hq hne
  refine ⟨?_, rfl, ?_⟩
  · have hcond : n ≠ 0 ∧ n ≤ buf.length := ⟨Nat.pos_iff_ne_zero.mp hn, hlen⟩
    simp only [Tcp.receive, if_pos hcond]
  · obtain ⟨q, rfl⟩ : ∃ q', q = q' + 1 :=
      ⟨q - 1, (Nat.succ_pred_eq_of_pos hq).symm⟩
    have hlen2 : (buf ++ chunk).length > 0 := List.length_pos.mpr hne
    simp [Tcp.onData, Tcp.processBuffer, hlen2, Tcp.processBuffer_nil]
    simpa using hne

/-- Witness for `tcp_receive_contract` at a concrete transport state. -/
theorem tcp_receive_contract_witness :
    Tcp.receive ⟨[7, 8], 1⟩ (some 1) = .resolved [7] ⟨[8], 1⟩ ∧
    Tcp.receive ⟨[7, 8], 1⟩ none = .queued ⟨[7, 8], 2⟩ ∧
    Tcp.onData ⟨[7, 8], 1⟩ [9] = ([[7, 8, 9]], ⟨[], 0⟩) := by
  have h := tcp_receive_contract ⟨[7, 8], 1⟩ 1 [9]
    (by decide) (by decide) (by decide) (by decide)
  simpa using h

/-- C3 is a code bug: with `ssl = {enabled: false, rejectUnauthorized: false}`
the transport runs in plaintext (`usesTls = false`), yet on full-auth status
byte 0x04 the driver sends the NUL-terminated password (here "hunter2") in
the clear and completes without a "requires SSL" error, because the code
tests JS truthiness of `config.ssl` instead of whether TLS is active. On the
boolean settings the claim holds: 0x03 completes without sending anything,
and 0x04 with `ssl = false` throws requires-SSL without sending. -/
theorem mysql_caching_sha2_plaintext_password_bug :
    MySqlAuth.SslSetting.usesTls (.config false false) = false ∧
    MySqlAuth.handleCachingSha2FastAuth (.config false false)
      [104, 117, 110, 116, 101, 114, 50] [0x01, 0x04] [[0x00]] =
      .ok [[104, 117, 110, 116, 101, 114, 50, 0]] ∧
    MySqlAuth.handleCachingSha2FastAuth (.boolean false)
      [104, 117, 110, 116, 101, 114, 50] [0x01, 0x03] [[0x00]] = .ok [] ∧
    MySqlAuth.handleCachingSha2FastAuth (.boolean false)
      [104, 117, 110, 116, 101, 114, 50] [0x01, 0x04] [[0x00]] =
      .fail .requiresSsl [] := by
  refine ⟨rfl, ?_, ?_, ?_⟩ <;> decide

/-- C6: for every n in {0, 250, 251, 65535, 65536, 16777215, 16777216},
encoding n with the documented MySQL length-encoding rule and decoding it
with `readLengthEncodedInteger` returns n and reports the documented byte
count (1, 1, 3, 3, 4, 4 and 9 bytes respectively). -/
theorem mysql_length_encoding_roundtrip :
    (MySqlPackets.readLengthEncodedInteger (MySqlPackets.lengthEncodeSpec 0) 0 =
      ⟨0, 1⟩) ∧
    (MySqlPackets.readLengthEncodedInteger (MySqlPackets.lengthEncodeSpec 250) 0 =
      ⟨250, 1⟩) ∧
    (MySqlPackets.readLengthEncodedInteger (MySqlPackets.lengthEncodeSpec 251) 0 =
      ⟨251, 3⟩) ∧
    (MySqlPackets.readLengthEncodedInteger (MySqlPackets.lengthEncodeSpec 65535) 0 =
      ⟨65535, 3⟩) ∧
    (MySqlPackets.readLengthEncodedInteger (MySqlPackets.lengthEncodeSpec 65536) 0 =
      ⟨65536, 4⟩) ∧
    (MySqlPackets.readLengthEncodedInteger (MySqlPackets.lengthEncodeSpec 16777215) 0 =
      ⟨16777215, 4⟩) ∧
    (MySqlPackets.readLengthEncodedInteger (MySqlPackets.lengthEncodeSpec 16777216) 0 =
      ⟨16777216, 9⟩) := by
  refine ⟨?_, ?_, ?_, ?_, ?_, ?_, ?_⟩ <;> decide

/-- C2: with a remembered (non-empty) server signature and a server-final
message that carries no error attribute, both SCRAM verifiers — Postgres
`verifyScramServerFinal` and the MongoDB `saslContinue` check — succeed
exactly when the message's v= attribute equals the remembered signature;
on a present-but-different v= the Postgres verifier throws the
signature-mismatch error, and on any non-matching v= the Mongo check throws
its verification-failed error. -/
theorem scram_server_final_signature_check (session : Scram.ScramSession)
    (sig msg : Scram.JStr) (hexp : session.expectedServerSignature = some sig)
    (hsig : sig ≠ [])
    (hnoe : Scram.optTruthy
      (Scram.getAttr (Scram.parseScramAttributes msg) (Scram.str "e")) = false) :
    ((Scram.verifyScramServerFinal session msg = .ok ()) ↔
      Scram.getAttr (Scram.parseScramAttributes msg) (Scram.str "v") = some sig) ∧
    (∀ v, Scram.getAttr (Scram.parseScramAttributes msg) (Scram.str "v") = some v →
      v ≠ [] → v ≠ sig →
      Scram.verifyScramServerFinal session msg =
        .error (Scram.str "SCRAM server signature mismatch")) ∧
    ((Scram.mongoVerifyServerSignature sig msg = .ok ()) ↔
      Scram.getAttr (Scram.parseScramAttributes msg) (Scram.str "v") = some sig) ∧
    (Scram.getAttr (Scram.parseScramAttributes msg) (Scram.str "v") ≠ some sig →
      Scram.mongoVerifyServerSignature sig msg =
        .error (Scram.str "Server signature verification failed")) := by
  obtain ⟨c, cs, rfl⟩ : ∃ c cs, sig = c :: cs := by
    cases sig with
    | nil => exact absurd rfl hsig
    | cons c cs => exact ⟨c, cs, rfl⟩
  simp only [Scram.verifyScramServerFinal, Scram.mongoVerifyServerSignature,
    hexp, hnoe]
  cases h : Scram.getAttr (Scram.parseScramAttributes msg) (Scram.str "v") with
  | none =>
    simp [Scram.optTruthy]
  | some v =>
    by_cases hv : v = []
    · subst hv
      simp [Scram.optTruthy]
    · by_cases hvs : v = c :: cs
      · subst hvs
        simp [Scram.optTruthy, hv]
      · obtain ⟨d, ds, rfl⟩ : ∃ d ds, v = d :: ds := by
          cases v with
          | nil => exact absurd rfl hv
          | cons d ds => exact ⟨d, ds, rfl⟩
        simp [Scram.optTruthy, hvs]

/-- Witness for `scram_server_final_signature_check` on a concrete session
and the server-final message "v=SIG". -/
theorem scram_server_final_signature_check_witness :
    ((Scram.verifyScramServerFinal
        ⟨Scram.str "n1", Scram.str "b", Scram.str "f", some (Scram.str "SIG")⟩
        (Scram.str "v=SIG") = .ok ()) ↔
      Scram.getAttr (Scram.parseScramAttributes (Scram.str "v=SIG"))
        (Scram.str "v") = some (Scram.str "SIG")) ∧
    (∀ v, Scram.getAttr (Scram.parseScramAttributes (Scram.str "v=SIG"))
        (Scram.str "v") = some v →
      v ≠ [] → v ≠ Scram.str "SIG" →
      Scram.verifyScramServerFinal
        ⟨Scram.str "n1", Scram.str "b", Scram.str "f", some (Scram.str "SIG")⟩
        (Scram.str "v=SIG") =
          .error (Scram.str "SCRAM server signature mismatch")) ∧
    ((Scram.mongoVerifyServerSignature (Scram.str "SIG") (Scram.str "v=SIG") =
        .ok ()) ↔
      Scram.getAttr (Scram.parseScramAttributes (Scram.str "v=SIG"))
        (Scram.str "v") = some (Scram.str "SIG")) ∧
    (Scram.getAttr (Scram.parseScramAttributes (Scram.str "v=SIG"))
        (Scram.str "v") ≠ some (Scram.str "SIG") →
      Scram.mongoVerifyServerSignature (Scram.str "SIG") (Scram.str "v=SIG") =
        .error (Scram.str "Server signature verification failed")) :=
  scram_server_final_signature_check
    ⟨Scram.str "n1", Scram.str "b", Scram.str "f", some (Scram.str "SIG")⟩
    (Scram.str "SIG") (Scram.str "v=SIG") rfl (by decide) (by decide)

theorem PgMessages.wordToHex_length (w : Nat) :
    (PgMessages.wordToHex w).length = 8 := by
  simp [PgMessages.wordToHex, PgMessages.hexPair, List.range_succ]

theorem PgMessages.md5Bytes_length (bs : WireBytes.Bytes) :
    (PgMessages.md5Bytes bs).length = 32 := by
  simp [PgMessages.md5Bytes, PgMessages.wordToHex_length]

theorem PgMessages.hexChar_mem (n : Nat) (h : n < 16) :
    PgMessages.hexChar n ∈ Scram.str "0123456789abcdef" := by
  interval_cases n <;> decide

theorem PgMessages.hexPair_mem (b : Nat) (ch : Char) (hb : b < 256)
    (h : ch ∈ PgMessages.hexPair b) :
    ch ∈ Scram.str "0123456789abcdef" := by
  simp only [PgMessages.hexPair, List.mem_cons, List.not_mem_nil, or_false] at h
  rcases h with h | h
  · subst h
    exact PgMessages.hexChar_mem _ (Nat.div_lt_of_lt_mul (by omega))
  · subst h
    exact PgMessages.hexChar_mem _ (Nat.mod_lt _ (by omega))

theorem PgMessages.wordToHex_mem (w : Nat) (ch : Char)
    (h : ch ∈ PgMessages.wordToHex w) :
    ch ∈ Scram.str "0123456789abcdef" := by
  simp only [PgMessages.wordToHex, List.mem_flatten, List.mem_map,
    List.mem_range] at h
  obtain ⟨l, ⟨i, _, rfl⟩, hch⟩ := h
  exact PgMessages.hexPair_mem _ ch
    (Nat.lt_succ_of_le (Nat.and_le_right)) hch

theorem PgMessages.md5Bytes_mem (bs : WireBytes.Bytes) (ch : Char)
    (h : ch ∈ PgMessages.md5Bytes bs) :
    ch ∈ Scram.str "0123456789abcdef" := by
  simp only [PgMessages.md5Bytes, List.mem_append] at h
  rcases h with ((h | h) | h) | h <;> exact PgMessages.wordToHex_mem _ ch h

set_option maxRecDepth 8192 in
/-- C5: on Postgres MD5 auth, the password message is exactly the byte
`'p'`, a 32-bit big-endian length, the UTF-8 bytes of the string "md5"
followed by the lowercase hex of md5(hex(md5(password + username)) + salt),
and a terminating NUL — for every password, username and salt. The md5 hex
output is always 32 lowercase hexadecimal characters, and the embedded md5
matches the reference digests of "" and "abc". -/
theorem pg_md5_password_message (password username : Scram.JStr)
    (salt : WireBytes.Bytes) :
    (PgMessages.createMd5PasswordMessage password username salt =
      [0x70] ++ WireBytes.be4 (4 + (PgMessages.utf8ToBytes (Scram.str "md5" ++
          PgMessages.md5Bytes (PgMessages.asciiToBytes (PgMessages.md5Bytes
            (PgMessages.utf8ToBytes (password ++ username))) ++ salt))).length +
          1) ++
        PgMessages.utf8ToBytes (Scram.str "md5" ++ PgMessages.md5Bytes
          (PgMessages.asciiToBytes (PgMessages.md5Bytes
            (PgMessages.utf8ToBytes (password ++ username))) ++ salt)) ++ [0]) ∧
    ((PgMessages.md5Bytes (PgMessages.asciiToBytes (PgMessages.md5Bytes
        (PgMessages.utf8ToBytes (password ++ username))) ++ salt)).length = 32 ∧
      ∀ ch ∈ PgMessages.md5Bytes (PgMessages.asciiToBytes (PgMessages.md5Bytes
        (PgMessages.utf8ToBytes (password ++ username))) ++ salt),
        ch ∈ Scram.str "0123456789abcdef") ∧
    PgMessages.md5Utf8 [] = Scram.str "d41d8cd98f00b204e9800998ecf8427e" ∧
    PgMessages.md5Utf8 (Scram.str "abc") =
      Scram.str "900150983cd24fb0d6963f7d28e17f72" := by
  refine ⟨rfl,
    ⟨PgMessages.md5Bytes_length _, fun ch hch => PgMessages.md5Bytes_mem _ ch hch⟩,
    ?_, ?_⟩ <;> decide

theorem WireBytes.byteAt_take (l : WireBytes.Bytes) (k i : Nat) (h : i < k) :
    WireBytes.byteAt (l.take k) i = WireBytes.byteAt l i := by
  unfold WireBytes.byteAt
  rw [List.getD_eq_getElem?_getD, List.getD_eq_getElem?_getD,
    List.getElem?_take_of_lt h]

theorem WireBytes.readInt32BE_take (l : WireBytes.Bytes) (k : Nat) (h : 5 ≤ k) :
    WireBytes.readInt32BE (l.take k) 1 = WireBytes.readInt32BE l 1 := by
  unfold WireBytes.readInt32BE WireBytes.readUInt32BE
  rw [WireBytes.byteAt_take l k 1 (by omega), WireBytes.byteAt_take l k 2 (by omega),
    WireBytes.byteAt_take l k 3 (by omega), WireBytes.byteAt_take l k 4 (by omega)]

theorem WireBytes.readUIntLE3_take (l : WireBytes.Bytes) (k : Nat) (h : 3 ≤ k) :
    WireBytes.readUIntLE3 (l.take k) 0 = WireBytes.readUIntLE3 l 0 := by
  unfold WireBytes.readUIntLE3
  rw [WireBytes.byteAt_take l k 0 (by omega), WireBytes.byteAt_take l k 1 (by omega),
    WireBytes.byteAt_take l k 2 (by omega)]

theorem WireBytes.readInt32LE_take (l : WireBytes.Bytes) (k : Nat) (h : 4 ≤ k) :
    WireBytes.readInt32LE (l.take k) 0 = WireBytes.readInt32LE l 0 := by
  unfold WireBytes.readInt32LE WireBytes.readUInt32LE
  rw [WireBytes.byteAt_take l k 0 (by omega), WireBytes.byteAt_take l k 1 (by omega),
    WireBytes.byteAt_take l k 2 (by omega), WireBytes.byteAt_take l k 3 (by omega)]

/-- `jsSlice` with nonnegative indices is take-then-drop. -/
theorem Frames.jsSlice_nonneg (l : WireBytes.Bytes) (s e : Int)
    (hs : 0 ≤ s) (he : 0 ≤ e) :
    Frames.jsSlice l s e = (l.take e.toNat).drop s.toNat := by
  unfold Frames.jsSlice
  dsimp only
  rw [if_neg (not_lt.mpr hs), if_neg (not_lt.mpr he)]
  have hs2 : (min s (l.length : Int)).toNat = min s.toNat l.length := by omega
  have he2 : (min e (l.length : Int)).toNat = min e.toNat l.length := by omega
  rw [hs2, he2]
  have htake : l.take (min e.toNat l.length) = l.take e.toNat := by
    rcases Nat.le_total e.toNat l.length with h | h
    · rw [Nat.min_eq_left h]
    · rw [Nat.min_eq_right h, List.take_length, List.take_of_length_le h]
  rw [htake]
  rcases Nat.le_total s.toNat l.length with h | h
  · rw [Nat.min_eq_left h]
  · rw [List.drop_eq_nil_of_le, List.drop_eq_nil_of_le]
    · have hl : (l.take e.toNat).length ≤ l.length := by
        simp only [List.length_take]
        omega
      omega
    · have hl : (l.take e.toNat).length ≤ l.length := by
        simp only [List.length_take]
        omega
      omega

/-- A strict leading slice of a complete Postgres frame does not parse. -/
theorem Frames.parseMessage_take_none (f : WireBytes.Bytes)
    (hwf : Frames.pgComplete f) (k : Nat) (hk : k < f.length) :
    Frames.parseMessage (f.take k) = none := by
  obtain ⟨h5, hlen⟩ := hwf
  by_cases h : k < 5
  · have c1 : (f.take k).length < 5 := by
      simp only [List.length_take]
      omega
    unfold Frames.parseMessage
    rw [if_pos c1]
  · push_neg at h
    have hlt : (f.take k).length = k := by
      simp only [List.length_take]
      omega
    have c1 : ¬((f.take k).length < 5) := by omega
    have c2 : ((f.take k).length : Int) <
        WireBytes.readInt32BE (f.take k) 1 + 1 := by
      rw [hlt, WireBytes.readInt32BE_take f k h, hlen]
      push_cast
      omega
    unfold Frames.parseMessage
    rw [if_neg c1]
    dsimp only
    rw [if_pos c2]

/-- A complete Postgres frame parses to its tag, its length field and the
bytes after the 5-byte header. -/
theorem Frames.parseMessage_complete (f : WireBytes.Bytes)
    (hwf : Frames.pgComplete f) :
    Frames.parseMessage f =
      some ⟨Char.ofNat (WireBytes.byteAt f 0), (f.length : Int) - 1,
        f.drop 5⟩ := by
  obtain ⟨h5, hlen⟩ := hwf
  have c1 : ¬(f.length < 5) := by omega
  have c2 : ¬((f.length : Int) < WireBytes.readInt32BE f 1 + 1) := by
    rw [hlen]
    omega
  unfold Frames.parseMessage
  rw [if_neg c1]
  dsimp only
  rw [if_neg c2, hlen]
  have harg : (f.length : Int) - 1 + 1 = ((f.length : Nat) : Int) := by
    push_cast
    ring
  rw [harg, Frames.jsSlice_nonneg f 5 _ (by omega) (by omega)]
  rw [Int.toNat_natCast, List.take_length]
  rfl

/-- The Postgres receive loop on any chunking of one complete frame yields
that frame and an empty remaining buffer. -/
theorem Frames.pgReceiveLoop_of_chunked (f : WireBytes.Bytes)
    (hwf : Frames.pgComplete f) :
    ∀ (chunks : List WireBytes.Bytes) (buffer : WireBytes.Bytes),
      buffer ++ chunks.flatten = f → buffer.length < f.length →
      Frames.pgReceiveLoop buffer chunks =
        some (⟨Char.ofNat (WireBytes.byteAt f 0), (f.length : Int) - 1,
          f.drop 5⟩, []) := by
  intro chunks
  induction chunks with
  | nil =>
    intro buffer hcat hlt
    rw [List.flatten_nil, List.append_nil] at hcat
    subst hcat
    exact absurd hlt (lt_irrefl _)
  | cons data rest ih =>
    intro buffer hcat hlt
    rw [List.flatten_cons, ← List.append_assoc] at hcat
    have hpre : buffer ++ data = f.take (buffer ++ data).length := by
      rw [← hcat, List.take_left]
    have hle : (buffer ++ data).length ≤ f.length := by
      rw [← hcat]
      simp
    rcases eq_or_lt_of_le hle with heq | hlt2
    · have hfull : buffer ++ data = f := by
        rw [hpre, heq, List.take_length]
      simp only [Frames.pgReceiveLoop, hfull,
        Frames.parseMessage_complete f hwf]
      have harg : (f.length : Int) - 1 + 1 = ((f.length : Nat) : Int) := by
        push_cast
        ring
      rw [harg, Frames.jsSlice_nonneg f _ _ (by omega) (by omega),
        Int.toNat_natCast, List.take_length, List.drop_length]
    · have hnone : Frames.parseMessage (buffer ++ data) = none := by
        rw [hpre]
        exact Frames.parseMessage_take_none f hwf _ (by omega)
      simp only [Frames.pgReceiveLoop, hnone]
      exact ih (buffer ++ data) hcat hlt2

/-- A strict leading slice of a complete MySQL packet does not extract. -/
theorem Frames.tryExtractPacket_take_none (f : WireBytes.Bytes)
    (hwf : Frames.myComplete f) (k : Nat) (hk : k < f.length) :
    Frames.tryExtractPacket (f.take k) = none := by
  obtain ⟨h4, hlen⟩ := hwf
  by_cases h : k < 4
  · have c1 : (f.take k).length < 4 := by
      simp only [List.length_take]
      omega
    unfold Frames.tryExtractPacket Frames.parsePacketHeader
    rw [if_pos c1]
  · push_neg at h
    have hlt : (f.take k).length = k := by
      simp only [List.length_take]
      omega
    have c1 : ¬((f.take k).length < 4) := by omega
    have hread : WireBytes.readUIntLE3 (f.take k) 0 = f.length - 4 := by
      rw [WireBytes.readUIntLE3_take f k (by omega), hlen]
    have c2 : ¬(4 + WireBytes.readUIntLE3 (f.take k) 0 ≤ (f.take k).length) := by
      rw [hread, hlt]
      omega
    unfold Frames.tryExtractPacket Frames.parsePacketHeader
    rw [if_neg c1]
    dsimp only
    rw [if_neg c2]

/-- A complete MySQL packet extracts to its payload, its sequence id and an
empty remaining buffer. -/
theorem Frames.tryExtractPacket_complete (f : WireBytes.Bytes)
    (hwf : Frames.myComplete f) :
    Frames.tryExtractPacket f =
      some ((f.drop 4, WireBytes.byteAt f 3), []) := by
  obtain ⟨h4, hlen⟩ := hwf
  have c1 : ¬(f.length < 4) := by omega
  have c2 : 4 + WireBytes.readUIntLE3 f 0 ≤ f.length := by
    rw [hlen]
    omega
  have c3 : 4 + WireBytes.readUIntLE3 f 0 = f.length := by
    rw [hlen]
    omega
  unfold Frames.tryExtractPacket Frames.parsePacketHeader
  rw [if_neg c1]
  dsimp only
  rw [if_pos c2, c3, List.take_length, List.drop_length]

/-- The MySQL receive loop on any chunking of one complete packet yields
that packet and an empty remaining buffer. -/
theorem Frames.receivePacketLoop_of_chunked (f : WireBytes.Bytes)
    (hwf : Frames.myComplete f) :
    ∀ (chunks : List WireBytes.Bytes) (buffer : WireBytes.Bytes),
      buffer ++ chunks.flatten = f → buffer.length < f.length →
      Frames.receivePacketLoop buffer chunks =
        some ((f.drop 4, WireBytes.byteAt f 3), []) := by
  have hfull : ∀ rest, Frames.receivePacketLoop f rest =
      some ((f.drop 4, WireBytes.byteAt f 3), []) := by
    intro rest
    cases rest <;>
      simp [Frames.receivePacketLoop, Frames.tryExtractPacket_complete f hwf]
  intro chunks
  induction chunks with
  | nil =>
    intro buffer hcat hlt
    rw [List.flatten_nil, List.append_nil] at hcat
    subst hcat
    exact absurd hlt (lt_irrefl _)
  | cons data rest ih =>
    intro buffer hcat hlt
    rw [List.flatten_cons, ← List.append_assoc] at hcat
    have hprebuf : buffer = f.take buffer.length := by
      rw [← hcat, List.append_assoc, List.take_left]
    have hnone : Frames.tryExtractPacket buffer = none := by
      rw [hprebuf]
      exact Frames.tryExtractPacket_take_none f hwf _ (by omega)
    simp only [Frames.receivePacketLoop, hnone]
    have hle : (buffer ++ data).length ≤ f.length := by
      rw [← hcat]
      simp
    rcases eq_or_lt_of_le hle with heq | hlt2
    · have hfull2 : buffer ++ data = f := by
        have : buffer ++ data = f.take (buffer ++ data).length := by
          rw [← hcat, List.take_left]
        rw [this, heq, List.take_length]
      rw [hfull2]
      exact hfull rest
    · exact ih (buffer ++ data) hcat hlt2

/-- A strict leading slice of a complete Mongo message does not extract. -/
theorem Frames.tryExtractMongoMessage_take_none (f : WireBytes.Bytes)
    (hwf : Frames.moComplete f) (k : Nat) (hk : k < f.length) :
    Frames.tryExtractMongoMessage (f.take k) = none := by
  obtain ⟨h4, hlen⟩ := hwf
  by_cases h : k < 4
  · have c1 : ¬(4 ≤ (f.take k).length) := by
      simp only [List.length_take]
      omega
    unfold Frames.tryExtractMongoMessage
    rw [if_neg c1]
  · push_neg at h
    have hlt : (f.take k).length = k := by
      simp only [List.length_take]
      omega
    have c1 : 4 ≤ (f.take k).length := by omega
    have c2 : ¬(WireBytes.readInt32LE (f.take k) 0 ≤ ((f.take k).length : Int)) := by
      rw [WireBytes.readInt32LE_take f k h, hlen, hlt]
      push_cast
      omega
    unfold Frames.tryExtractMongoMessage
    rw [if_pos c1]
    dsimp only
    rw [if_neg c2]

/-- A complete Mongo message extracts to itself and an empty remaining
buffer. -/
theorem Frames.tryExtractMongoMessage_complete (f : WireBytes.Bytes)
    (hwf : Frames.moComplete f) :
    Frames.tryExtractMongoMessage f = some (f, []) := by
  obtain ⟨h4, hlen⟩ := hwf
  have c1 : 4 ≤ f.length := h4
  have c2 : WireBytes.readInt32LE f 0 ≤ (f.length : Int) := by
    rw [hlen]
  unfold Frames.tryExtractMongoMessage
  rw [if_pos c1]
  dsimp only
  rw [if_pos c2, hlen,
    Frames.jsSlice_nonneg f 0 _ (by omega) (by omega),
    Frames.jsSlice_nonneg f _ _ (by omega) (by omega)]
  rw [Int.toNat_natCast, List.take_length, List.drop_length]
  rfl

/-- The Mongo receive loop on any chunking of one complete message yields
that message and an empty remaining buffer. -/
theorem Frames.mongoReceiveLoop_of_chunked (f : WireBytes.Bytes)
    (hwf : Frames.moComplete f) :
    ∀ (chunks : List WireBytes.Bytes) (buffer : WireBytes.Bytes),
      buffer ++ chunks.flatten = f → buffer.length < f.length →
      Frames.mongoReceiveLoop buffer chunks = some (f, []) := by
  have hfull : ∀ rest, Frames.mongoReceiveLoop f rest = some (f, []) := by
    intro rest
    cases rest <;>
      simp [Frames.mongoReceiveLoop, Frames.tryExtractMongoMessage_complete f hwf]
  intro chunks
  induction chunks with
  | nil =>
    intro buffer hcat hlt
    rw [List.flatten_nil, List.append_nil] at hcat
    subst hcat
    exact absurd hlt (lt_irrefl _)
  | cons data rest ih =>
    intro buffer hcat hlt
    rw [List.flatten_cons, ← List.append_assoc] at hcat
    have hprebuf : buffer = f.take buffer.length := by
      rw [← hcat, List.append_assoc, List.take_left]
    have hnone : Frames.tryExtractMongoMessage buffer = none := by
      rw [hprebuf]
      exact Frames.tryExtractMongoMessage_take_none f hwf _ (by omega)
    simp only [Frames.mongoReceiveLoop, hnone]
    have hle : (buffer ++ data).length ≤ f.length := by
      rw [← hcat]
      simp
    rcases eq_or_lt_of_le hle with heq | hlt2
    · have hfull2 : buffer ++ data = f := by
        have : buffer ++ data = f.take (buffer ++ data).length := by
          rw [← hcat, List.take_left]
        rw [this, heq, List.take_length]
      rw [hfull2]
      exact hfull rest
    · exact ih (buffer ++ data) hcat hlt2

/-- C4: for every complete Postgres, MySQL or Mongo frame, delivering its
bytes to the respective driver frame-assembly loop in arbitrarily many
chunks yields exactly the same parsed frame (and empty leftover buffer) as
delivering it in one chunk, and delivering any strict leading slice alone
produces no frame — the loop just runs out of chunks waiting. -/
theorem frame_chunking_invariance
    (fPg fMy fMo : WireBytes.Bytes)
    (chPg chMy chMo : List WireBytes.Bytes)
    (hPg : Frames.pgComplete fPg) (hMy : Frames.myComplete fMy)
    (hMo : Frames.moComplete fMo)
    (hcPg : chPg.flatten = fPg) (hcMy : chMy.flatten = fMy)
    (hcMo : chMo.flatten = fMo) :
    (Frames.pgReceiveLoop [] chPg = Frames.pgReceiveLoop [] [fPg] ∧
      Frames.pgReceiveLoop [] [fPg] =
        some (⟨Char.ofNat (WireBytes.byteAt fPg 0), (fPg.length : Int) - 1,
          fPg.drop 5⟩, []) ∧
      ∀ k < fPg.length, Frames.pgReceiveLoop [] [fPg.take k] = none) ∧
    (Frames.receivePacketLoop [] chMy = Frames.receivePacketLoop [] [fMy] ∧
      Frames.receivePacketLoop [] [fMy] =
        some ((fMy.drop 4, WireBytes.byteAt fMy 3), []) ∧
      ∀ k < fMy.length, Frames.receivePacketLoop [] [fMy.take k] = none) ∧
    (Frames.mongoReceiveLoop [] chMo = Frames.mongoReceiveLoop [] [fMo] ∧
      Frames.mongoReceiveLoop [] [fMo] = some (fMo, []) ∧
      ∀ k < fMo.length, Frames.mongoReceiveLoop [] [fMo.take k] = none) := by
  have hlPg : 0 < fPg.length := by
    have := hPg.1
    omega
  have hlMy : 0 < fMy.length := by
    have := hMy.1
    omega
  have hlMo : 0 < fMo.length := by
    have := hMo.1
    omega
  have hPg1 := Frames.pgReceiveLoop_of_chunked fPg hPg chPg []
    (by simpa using hcPg) (by simpa using hlPg)
  have hPg2 := Frames.pgReceiveLoop_of_chunked fPg hPg [fPg] []
    (by simp) (by simpa using hlPg)
  have hMy1 := Frames.receivePacketLoop_of_chunked fMy hMy chMy []
    (by simpa using hcMy) (by simpa using hlMy)
  have hMy2 := Frames.receivePacketLoop_of_chunked fMy hMy [fMy] []
    (by simp) (by simpa using hlMy)
  have hMo1 := Frames.mongoReceiveLoop_of_chunked fMo hMo chMo []
    (by simpa using hcMo) (by simpa using hlMo)
  have hMo2 := Frames.mongoReceiveLoop_of_chunked fMo hMo [fMo] []
    (by simp) (by simpa using hlMo)
  refine ⟨⟨hPg1.trans hPg2.symm, hPg2, ?_⟩,
    ⟨hMy1.trans hMy2.symm, hMy2, ?_⟩,
    ⟨hMo1.trans hMo2.symm, hMo2, ?_⟩⟩
  · intro k hk
    have hnone := Frames.parseMessage_take_none fPg hPg k hk
    simp only [Frames.pgReceiveLoop, List.nil_append, hnone]
  · intro k hk
    have hnone := Frames.tryExtractPacket_take_none fMy hMy k hk
    have hnil : Frames.tryExtractPacket [] = none := rfl
    simp only [Frames.receivePacketLoop, hnil, List.nil_append, hnone]
  · intro k hk
    have hnone := Frames.tryExtractMongoMessage_take_none fMo hMo k hk
    have hnil : Frames.tryExtractMongoMessage [] = none := rfl
    simp only [Frames.mongoReceiveLoop, hnil, List.nil_append, hnone]

/-- Witness for `frame_chunking_invariance`: a ReadyForQuery-like Postgres
frame, a one-byte MySQL packet and a minimal Mongo message, each delivered
in 1-to-3-byte chunks, against one-chunk delivery; plus one strict slice
each, which yields no frame. -/
theorem frame_chunking_invariance_witness :
    (Frames.pgReceiveLoop [] [[0x5a], [0, 0, 0], [5, 0x49]] =
      Frames.pgReceiveLoop [] [[0x5a, 0, 0, 0, 5, 0x49]] ∧
     Frames.pgReceiveLoop []
       [([0x5a, 0, 0, 0, 5, 0x49] : WireBytes.Bytes).take 3] = none) ∧
    (Frames.receivePacketLoop [] [[1], [0, 0, 0, 0xab]] =
      Frames.receivePacketLoop [] [[1, 0, 0, 0, 0xab]] ∧
     Frames.receivePacketLoop []
       [([1, 0, 0, 0, 0xab] : WireBytes.Bytes).take 4] = none) ∧
    (Frames.mongoReceiveLoop [] [[5, 0], [0, 0, 7]] =
      Frames.mongoReceiveLoop [] [[5, 0, 0, 0, 7]] ∧
     Frames.mongoReceiveLoop []
       [([5, 0, 0, 0, 7] : WireBytes.Bytes).take 4] = none) := by
  have h := frame_chunking_invariance
    [0x5a, 0, 0, 0, 5, 0x49] [1, 0, 0, 0, 0xab] [5, 0, 0, 0, 7]
    [[0x5a], [0, 0, 0], [5, 0x49]] [[1], [0, 0, 0, 0xab]] [[5, 0], [0, 0, 7]]
    (by constructor <;> decide) (by constructor <;> decide)
    (by constructor <;> decide) (by decide) (by decide) (by decide)
  exact ⟨⟨h.1.1, h.1.2.2 3 (by decide)⟩, ⟨h.2.1.1, h.2.1.2.2 4 (by decide)⟩,
    ⟨h.2.2.1, h.2.2.2.2 4 (by decide)⟩⟩

/-- A pool whose entries are all in use yields no reusable connection. -/
theorem Pool.markFirstAvailable_busy (now : Nat)
    (pool : List Pool.PooledConnection)
    (h : ∀ pc ∈ pool, pc.inUse = true) :
    Pool.markFirstAvailable now pool = none := by
  induction pool with
  | nil => rfl
  | cons pc rest ih =>
    have hpc := h pc (by simp)
    have hrest := ih (fun x hx => h x (by simp [hx]))
    simp [Pool.markFirstAvailable, hpc, hrest]

/-- `markFirstAvailable` takes the first idle entry, marks it in use and
stamps `lastUsed`. -/
theorem Pool.markFirstAvailable_found (now : Nat)
    (busy rest : List Pool.PooledConnection) (pc : Pool.PooledConnection)
    (hb : ∀ b ∈ busy, b.inUse = true) (hpc : pc.inUse = false) :
    Pool.markFirstAvailable now (busy ++ pc :: rest) =
      some (pc.connection,
        busy ++ ⟨pc.connection, pc.createdWith, now, true⟩ :: rest) := by
  induction busy with
  | nil => simp [Pool.markFirstAvailable, hpc]
  | cons b bs ih =>
    have hb0 := hb b (by simp)
    have hrest := ih (fun x hx => hb x (by simp [hx]))
    simp [Pool.markFirstAvailable, hb0, hrest]

/-- When every snapshot is fully busy and the snapshots last beyond the
timeout, `waitForAvailable` rejects pool-exhausted. -/
theorem Pool.waitForAvailable_exhausts (timeout start : Nat) :
    ∀ (snapshots : List (List Pool.PooledConnection)) (tick : Nat),
      (∀ p ∈ snapshots, ∀ pc ∈ p, pc.inUse = true) →
      50 * tick ≤ timeout → timeout < 50 * (tick + snapshots.length) →
      Pool.waitForAvailable timeout start tick snapshots = .exhausted := by
  intro snapshots
  induction snapshots with
  | nil =>
    intro tick _ hlo hhi
    simp only [List.length_nil, Nat.add_zero] at hhi
    omega
  | cons pool rest ih =>
    intro tick hbusy hlo hhi
    have hnone := Pool.markFirstAvailable_busy (start + 50 * (tick + 1)) pool
      (hbusy pool (by simp))
    simp only [Pool.waitForAvailable, hnone]
    by_cases hstop : timeout < start + 50 * (tick + 1) - start
    · rw [if_pos hstop]
    · rw [if_neg hstop]
      refine ih (tick + 1) (fun p hp => hbusy p (by simp [hp])) (by omega) ?_
      simp only [List.length_cons] at hhi
      omega

/-- When an idle entry shows up in a snapshot before the timeout has been
exceeded, `waitForAvailable` acquires it (the first idle entry of that
snapshot, marked in use). -/
theorem Pool.waitForAvailable_acquires (timeout start : Nat) :
    ∀ (allBusy : List (List Pool.PooledConnection)) (tick : Nat)
      (busy rest : List Pool.PooledConnection) (pc : Pool.PooledConnection)
      (after : List (List Pool.PooledConnection)),
      (∀ p ∈ allBusy, ∀ x ∈ p, x.inUse = true) →
      (∀ b ∈ busy, b.inUse = true) → pc.inUse = false →
      50 * (tick + allBusy.length) ≤ timeout →
      Pool.waitForAvailable timeout start tick
          (allBusy ++ (busy ++ pc :: rest) :: after) =
        .acquired pc.connection
          (busy ++ ⟨pc.connection, pc.createdWith,
            start + 50 * (tick + allBusy.length + 1), true⟩ :: rest) := by
  intro allBusy
  induction allBusy with
  | nil =>
    intro tick busy rest pc after _ hb hpc _
    have hfound := Pool.markFirstAvailable_found (start + 50 * (tick + 1))
      busy rest pc hb hpc
    simp only [List.nil_append, Pool.waitForAvailable, hfound,
      List.length_nil, Nat.add_zero]
  | cons p ps ih =>
    intro tick busy rest pc after hall hb hpc hle
    have hnone := Pool.markFirstAvailable_busy (start + 50 * (tick + 1)) p
      (hall p (by simp))
    simp only [List.cons_append, Pool.waitForAvailable, hnone]
    have hstop : ¬(timeout < start + 50 * (tick + 1) - start) := by
      simp only [List.length_cons] at hle
      omega
    rw [if_neg hstop]
    have h2 := ih (tick + 1) busy rest pc after
      (fun q hq => hall q (by simp [hq])) hb hpc
      (by simp only [List.length_cons] at hle ⊢; omega)
    have harith : tick + 1 + ps.length + 1 = tick + (p :: ps).length + 1 := by
      simp only [List.length_cons]
      omega
    rw [harith] at h2
    simpa using h2

/-- C9: `acquire` reuses the first idle entry of the pool keyed by the
config (marking it in use, without creating a connection); with no idle
entry and the pool under `maxSize` it creates a fresh connection via the
factory, adds it in-use and returns it; at `maxSize` it falls through to
`waitForAvailable`, which polls the pool every 50ms, rejects pool-exhausted
once more than `acquireTimeoutMs` has elapsed with every snapshot fully
busy, and otherwise resolves with an idle entry that appears in time. -/
theorem pool_acquire_contract (config : Pool.ConnectionConfig)
    (pools : Pool.PoolMap) (maxSize now freshConn : Nat)
    (pool : List Pool.PooledConnection)
    (hpool : Pool.poolOf pools (Pool.getPoolKey config) = pool) :
    (∀ busy rest pc, pool = busy ++ pc :: rest →
      (∀ b ∈ busy, b.inUse = true) → pc.inUse = false →
      Pool.acquire config pools maxSize now freshConn =
        .reused pc.connection (Pool.setPool pools (Pool.getPoolKey config)
          (busy ++ ⟨pc.connection, pc.createdWith, now, true⟩ :: rest))) ∧
    ((∀ pc ∈ pool, pc.inUse = true) → pool.length < maxSize →
      Pool.acquire config pools maxSize now freshConn =
        .created freshConn (Pool.setPool pools (Pool.getPoolKey config)
          (pool ++ [⟨freshConn, config, now, true⟩]))) ∧
    ((∀ pc ∈ pool, pc.inUse = true) → maxSize ≤ pool.length →
      Pool.acquire config pools maxSize now freshConn =
        .exhaustedWait (Pool.getPoolKey config)) ∧
    (∀ timeout start snapshots,
      (∀ p ∈ snapshots, ∀ pc ∈ p, pc.inUse = true) →
      timeout < 50 * snapshots.length →
      Pool.waitForAvailable timeout start 0 snapshots = .exhausted) ∧
    (∀ timeout start allBusy busy rest pc after,
      (∀ p ∈ allBusy, ∀ x ∈ p, x.inUse = true) →
      (∀ b ∈ busy, b.inUse = true) → pc.inUse = false →
      50 * allBusy.length ≤ timeout →
      Pool.waitForAvailable timeout start 0
          (allBusy ++ (busy ++ pc :: rest) :: after) =
        .acquired pc.connection
          (busy ++ ⟨pc.connection, pc.createdWith,
            start + 50 * (allBusy.length + 1), true⟩ :: rest)) := by
  refine ⟨?_, ?_, ?_, ?_, ?_⟩
  · intro busy rest pc hsplit hb hpc
    have hfound := Pool.markFirstAvailable_found now busy rest pc hb hpc
    simp only [Pool.acquire, hpool, hsplit, hfound]
  · intro hbusy hsz
    have hnone := Pool.markFirstAvailable_busy now pool hbusy
    simp only [Pool.acquire, hpool, hnone, if_pos hsz]
  · intro hbusy hsz
    have hnone := Pool.markFirstAvailable_busy now pool hbusy
    simp only [Pool.acquire, hpool, hnone, if_neg (Nat.not_lt.mpr hsz)]
  · intro timeout start snapshots hbusy hlong
    exact Pool.waitForAvailable_exhausts timeout start snapshots 0 hbusy
      (by omega) (by omega)
  · intro timeout start allBusy busy rest pc after hall hb hpc hle
    have := Pool.waitForAvailable_acquires timeout start allBusy 0 busy rest
      pc after hall hb hpc (by omega)
    simpa using this

/-- Witness for `pool_acquire_contract` on a two-entry pool (one busy, one
idle), a fully-busy pool at `maxSize`, and concrete wait scenarios. -/
theorem pool_acquire_contract_witness :
    (Pool.acquire ⟨"i", "n", "postgres", "h", 1, "d", "u", "p",
        .boolean false⟩
      [(Pool.getPoolKey ⟨"i", "n", "postgres", "h", 1, "d", "u", "p",
          .boolean false⟩,
        [⟨1, ⟨"i", "n", "postgres", "h", 1, "d", "u", "p", .boolean false⟩,
            0, true⟩,
         ⟨2, ⟨"i", "n", "postgres", "h", 1, "d", "u", "p", .boolean false⟩,
            0, false⟩])]
      5 9 7 =
      .reused 2 (Pool.setPool
        [(Pool.getPoolKey ⟨"i", "n", "postgres", "h", 1, "d", "u", "p",
            .boolean false⟩,
          [⟨1, ⟨"i", "n", "postgres", "h", 1, "d", "u", "p", .boolean false⟩,
              0, true⟩,
           ⟨2, ⟨"i", "n", "postgres", "h", 1, "d", "u", "p", .boolean false⟩,
              0, false⟩])]
        (Pool.getPoolKey ⟨"i", "n", "postgres", "h", 1, "d", "u", "p",
          .boolean false⟩)
        [⟨1, ⟨"i", "n", "postgres", "h", 1, "d", "u", "p", .boolean false⟩,
            0, true⟩,
         ⟨2, ⟨"i", "n", "postgres", "h", 1, "d", "u", "p", .boolean false⟩,
            9, true⟩])) ∧
    Pool.waitForAvailable 60 100 0
      [[⟨1, ⟨"i", "n", "postgres", "h", 1, "d", "u", "p", .boolean false⟩,
          0, true⟩],
       [⟨1, ⟨"i", "n", "postgres", "h", 1, "d", "u", "p", .boolean false⟩,
          0, true⟩]] = .exhausted := by
  have h := pool_acquire_contract
    ⟨"i", "n", "postgres", "h", 1, "d", "u", "p", .boolean false⟩
    [(Pool.getPoolKey ⟨"i", "n", "postgres", "h", 1, "d", "u", "p",
        .boolean false⟩,
      [⟨1, ⟨"i", "n", "postgres", "h", 1, "d", "u", "p", .boolean false⟩,
          0, true⟩,
       ⟨2, ⟨"i", "n", "postgres", "h", 1, "d", "u", "p", .boolean false⟩,
          0, false⟩])]
    5 9 7
    [⟨1, ⟨"i", "n", "postgres", "h", 1, "d", "u", "p", .boolean false⟩,
        0, true⟩,
     ⟨2, ⟨"i", "n", "postgres", "h", 1, "d", "u", "p", .boolean false⟩,
        0, false⟩]
    (by simp [Pool.poolOf])
  refine ⟨?_, ?_⟩
  · exact h.1
      [⟨1, ⟨"i", "n", "postgres", "h", 1, "d", "u", "p", .boolean false⟩,
          0, true⟩]
      []
      ⟨2, ⟨"i", "n", "postgres", "h", 1, "d", "u", "p", .boolean false⟩,
          0, false⟩
      rfl (by decide) rfl
  · exact h.2.2.2.1 60 100 _ (by decide) (by decide)

/-- C10: the pool key is computed only from type, host, port, database and
username, so two configs that agree on those five fields but differ in
password (or ssl) share a pool; an idle entry created and authenticated
with one config's password is handed out by `acquire` called with the
other config. -/
theorem pool_key_ignores_password_and_ssl (c1 c2 : Pool.ConnectionConfig)
    (ht : c1.dbType = c2.dbType) (hh : c1.host = c2.host)
    (hp : c1.port = c2.port) (hd : c1.database = c2.database)
    (hu : c1.username = c2.username) :
    Pool.getPoolKey c1 = Pool.getPoolKey c2 ∧
    (∀ t1 t2 t3 id maxSize, 0 < maxSize →
      Pool.acquire c1 [] maxSize t1 id =
        .created id [(Pool.getPoolKey c1, [⟨id, c1, t1, true⟩])] ∧
      Pool.acquire c2
          (Pool.release c1 id [(Pool.getPoolKey c1, [⟨id, c1, t1, true⟩])] t2)
          maxSize t3 id =
        .reused id [(Pool.getPoolKey c1, [⟨id, c1, t3, true⟩])]) := by
  have hkey : Pool.getPoolKey c1 = Pool.getPoolKey c2 := by
    unfold Pool.getPoolKey
    rw [ht, hh, hp, hd, hu]
  refine ⟨hkey, ?_⟩
  intro t1 t2 t3 id maxSize hmax
  constructor
  · simp only [Pool.acquire, Pool.poolOf, Pool.setPool,
      Pool.markFirstAvailable]
    simp [hmax]
  · have hrel : Pool.release c1 id
        [(Pool.getPoolKey c1, [⟨id, c1, t1, true⟩])] t2 =
        [(Pool.getPoolKey c1, [⟨id, c1, t2, false⟩])] := by
      simp [Pool.release, Pool.poolOf, Pool.setPool, Pool.releaseMark]
    rw [hrel]
    simp only [Pool.acquire, Pool.poolOf, ← hkey, List.find?_cons_of_pos,
      decide_eq_true_eq]
    simp [Pool.markFirstAvailable, Pool.setPool]

/-- Witness for `pool_key_ignores_password_and_ssl`: two configs agreeing
on type/host/port/database/username but with different passwords and ssl
settings share a pool key, and the second config is handed the idle
connection created with the first config's password. -/
theorem pool_key_ignores_password_and_ssl_witness :
    Pool.getPoolKey ⟨"i1", "n1", "postgres", "h", 5432, "d", "u", "secretA",
        .boolean false⟩ =
      Pool.getPoolKey ⟨"i2", "n2", "postgres", "h", 5432, "d", "u", "secretB",
        .boolean true⟩ ∧
    Pool.acquire ⟨"i2", "n2", "postgres", "h", 5432, "d", "u", "secretB",
        .boolean true⟩
      (Pool.release ⟨"i1", "n1", "postgres", "h", 5432, "d", "u", "secretA",
          .boolean false⟩ 7
        [(Pool.getPoolKey ⟨"i1", "n1", "postgres", "h", 5432, "d", "u",
            "secretA", .boolean false⟩,
          [⟨7, ⟨"i1", "n1", "postgres", "h", 5432, "d", "u", "secretA",
              .boolean false⟩, 1, true⟩])] 2)
      5 3 7 =
    .reused 7
      [(Pool.getPoolKey ⟨"i1", "n1", "postgres", "h", 5432, "d", "u",
          "secretA", .boolean false⟩,
        [⟨7, ⟨"i1", "n1", "postgres", "h", 5432, "d", "u", "secretA",
            .boolean false⟩, 3, true⟩])] := by
  have h := pool_key_ignores_password_and_ssl
    ⟨"i1", "n1", "postgres", "h", 5432, "d", "u", "secretA", .boolean false⟩
    ⟨"i2", "n2", "postgres", "h", 5432, "d", "u", "secretB", .boolean true⟩
    rfl rfl rfl rfl rfl
  exact ⟨h.1, (h.2 1 2 3 7 5 (by omega)).2⟩

/-- The row loop returns the state it was given, on every path. -/
theorem MySqlQuery.readRows_fst (st : MySqlQuery.ConnState)
    (cols : List MySqlQuery.ColumnDefinition) :
    ∀ (packets : List WireBytes.Bytes) (rows : List (List (Option WireBytes.Bytes))),
      (MySqlQuery.readRows st cols packets rows).1 = st := by
  intro packets
  induction packets with
  | nil => intro rows; rfl
  | cons p rest ih =>
    intro rows
    simp only [MySqlQuery.readRows]
    split
    · rfl
    · split
      · rfl
      · exact ih _

/-- The column loop returns the state it was given, on every path. -/
theorem MySqlQuery.readColumns_fst (st : MySqlQuery.ConnState) :
    ∀ (n : Nat) (packets : List WireBytes.Bytes)
      (cols : List MySqlQuery.ColumnDefinition),
      (MySqlQuery.readColumns st n packets cols).1 = st := by
  intro n
  induction n with
  | zero =>
    intro packets cols
    cases packets with
    | nil => rfl
    | cons p rest =>
      simp only [MySqlQuery.readColumns]
      split
      · rfl
      · exact MySqlQuery.readRows_fst st cols rest []
  | succ n ih =>
    intro packets cols
    cases packets with
    | nil => rfl
    | cons p rest => exact ih rest _

/-- C8 counterexample: a query that terminates with a server error (ERR
packet 0xFF, message bytes "no") leaves the driver state `connected`, not
`error`: `query` never assigns `this.state`. -/
theorem mysql_query_error_keeps_state_counterexample :
    MySqlQuery.query .connected true
      [[0xff, 0x28, 0x04, 0x23, 52, 50, 83, 48, 50, 110, 111]] =
      (.connected, .error (.server [110, 111])) ∧
    MySqlQuery.ConnState.connected ≠ .error (.server [110, 111]) :=
  ⟨by rfl, by decide⟩

/-- C8 as amended: a failing `connect()` does set the state to `error`
carrying the thrown message (and a successful one to `connected`), but
`query()` returns with exactly the state it was entered with on every
path — server errors, the not-connected throw and success alike propagate
the outcome as an exception without touching `ConnectionState`. -/
theorem connection_error_state_contract :
    (∀ e, MySqlQuery.connectRun (.error e) = .error e) ∧
    MySqlQuery.connectRun (.ok ()) = .connected ∧
    (∀ (st : MySqlQuery.ConnState) (isConnected : Bool)
      (packets : List WireBytes.Bytes),
      (MySqlQuery.query st isConnected packets).1 = st) := by
  refine ⟨fun e => rfl, rfl, ?_⟩
  intro st isConnected packets
  simp only [MySqlQuery.query]
  split
  · rfl
  · cases packets with
    | nil => rfl
    | cons firstPacket rest =>
      dsimp only
      split
      · rfl
      · split
        · rfl
        · exact MySqlQuery.readColumns_fst st _ rest []

theorem WireBytes.readUInt32LE_le4 (m : Nat) (rest : WireBytes.Bytes)
    (h : m < 2 ^ 32) :
    WireBytes.readUInt32LE (WireBytes.le4 m ++ rest) 0 = m := by
  simp only [WireBytes.readUInt32LE, WireBytes.le4, WireBytes.byteAt,
    List.cons_append, List.getD_cons_zero, List.getD_cons_succ]
  omega

theorem WireBytes.readInt32LE_int32le (n : Int) (rest : WireBytes.Bytes)
    (hlo : -2147483648 ≤ n) (hhi : n < 2147483648) :
    WireBytes.readInt32LE (WireBytes.int32le n ++ rest) 0 = n := by
  have hm : ((n % 2 ^ 32).toNat : Int) = n % 2 ^ 32 :=
    Int.toNat_of_nonneg (Int.emod_nonneg n (by norm_num))
  have hub : (n % 2 ^ 32).toNat < 2 ^ 32 := by omega
  simp only [WireBytes.readInt32LE, WireBytes.int32le,
    WireBytes.readUInt32LE_le4 _ rest hub]
  omega


theorem WireBytes.int32le_length (n : Int) : (WireBytes.int32le n).length = 4 :=
  rfl

theorem WireBytes.int64le_length (n : Int) : (WireBytes.int64le n).length = 8 :=
  rfl

theorem WireBytes.readUInt32LE_shift (pre X : WireBytes.Bytes) (c : Nat) :
    WireBytes.readUInt32LE (pre ++ X) (pre.length + c) =
      WireBytes.readUInt32LE X c := by
  simp only [WireBytes.readUInt32LE]
  rw [show pre.length + c + 1 = pre.length + (c + 1) by omega,
    show pre.length + c + 2 = pre.length + (c + 2) by omega,
    show pre.length + c + 3 = pre.length + (c + 3) by omega,
    WireBytes.byteAt_append_right, WireBytes.byteAt_append_right,
    WireBytes.byteAt_append_right, WireBytes.byteAt_append_right]

theorem WireBytes.readInt32LE_shift (pre X : WireBytes.Bytes) (c : Nat) :
    WireBytes.readInt32LE (pre ++ X) (pre.length + c) =
      WireBytes.readInt32LE X c := by
  simp only [WireBytes.readInt32LE, WireBytes.readUInt32LE_shift]

theorem WireBytes.readInt64LE_shift (pre X : WireBytes.Bytes) (c : Nat) :
    WireBytes.readInt64LE (pre ++ X) (pre.length + c) =
      WireBytes.readInt64LE X c := by
  simp only [WireBytes.readInt64LE, WireBytes.readUInt64LE]
  rw [show pre.length + c + 4 = pre.length + (c + 4) by omega,
    WireBytes.readUInt32LE_shift, WireBytes.readUInt32LE_shift]

theorem WireBytes.readUInt64LE_le8 (m : Nat) (rest : WireBytes.Bytes)
    (h : m < 2 ^ 64) :
    WireBytes.readUInt64LE (WireBytes.le8 m ++ rest) 0 = m := by
  have h1 : m % 2 ^ 32 < 2 ^ 32 := by omega
  have h2 : m / 2 ^ 32 < 2 ^ 32 := by omega
  have e1 : WireBytes.readUInt32LE (WireBytes.le8 m ++ rest) 0 = m % 2 ^ 32 := by
    rw [WireBytes.le8, List.append_assoc]
    exact WireBytes.readUInt32LE_le4 _ _ h1
  have e2 : WireBytes.readUInt32LE (WireBytes.le8 m ++ rest) 4 = m / 2 ^ 32 := by
    rw [WireBytes.le8, List.append_assoc,
      show (4 : Nat) = (WireBytes.le4 (m % 2 ^ 32)).length + 0 from rfl,
      WireBytes.readUInt32LE_shift]
    exact WireBytes.readUInt32LE_le4 _ _ h2
  simp only [WireBytes.readUInt64LE, Nat.zero_add, e1, e2]
  omega

theorem WireBytes.readInt64LE_int64le (n : Int) (rest : WireBytes.Bytes)
    (hlo : -(2 ^ 63) ≤ n) (hhi : n < 2 ^ 63) :
    WireBytes.readInt64LE (WireBytes.int64le n ++ rest) 0 = n := by
  have hm : ((n % 2 ^ 64).toNat : Int) = n % 2 ^ 64 :=
    Int.toNat_of_nonneg (Int.emod_nonneg n (by norm_num))
  have hub : (n % 2 ^ 64).toNat < 2 ^ 64 := by omega
  simp only [WireBytes.readInt64LE, WireBytes.int64le,
    WireBytes.readUInt64LE_le8 _ rest hub]
  omega

theorem WireBytes.byteAt_shift (pre X : WireBytes.Bytes) (c : Nat) :
    WireBytes.byteAt (pre ++ X) (pre.length + c) = WireBytes.byteAt X c :=
  WireBytes.byteAt_append_right pre X c

/-- Slicing entirely inside the right part of an append. -/
theorem WireBytes.take_drop_shift (pre X : WireBytes.Bytes) (a b : Nat) :
    ((pre ++ X).take (pre.length + a)).drop (pre.length + b) =
      (X.take a).drop b := by
  rw [List.take_append, List.drop_append]

/-- `buffer.indexOf(0, start)` right after an append boundary finds the
first zero of the right part. -/
theorem WireBytes.jsIndexOf_append (pre k rest : WireBytes.Bytes)
    (hk : ¬0 ∈ k) :
    WireBytes.jsIndexOf (pre ++ (k ++ 0 :: rest)) 0 pre.length =
      ((pre.length + k.length : Nat) : Int) := by
  unfold WireBytes.jsIndexOf
  rw [List.drop_left]
  have : (k ++ 0 :: rest).indexOf? 0 = some k.length := by
    induction k with
    | nil => simp [List.indexOf?, List.findIdx?_cons]
    | cons a as ih =>
      have ha : (a == 0) = false := by
        simp only [List.mem_cons, not_or] at hk
        simp only [beq_eq_false_iff_ne, ne_eq]
        exact fun h => hk.1 h.symm
      simp only [List.cons_append, List.indexOf?, List.findIdx?_cons, ha,
        cond_false, List.length_cons]
      have ih2 := ih (by simp only [List.mem_cons, not_or] at hk; exact hk.2)
      simp only [List.indexOf?] at ih2
      rw [List.findIdx?_succ]
      simp [ih2]
  rw [this]

theorem Bson.natKeyAux_digits :
    ∀ (fuel n b : Nat), b ∈ Bson.natKeyAux fuel n → 48 ≤ b ∧ b ≤ 57 := by
  intro fuel
  induction fuel with
  | zero => intro n b h; simp [Bson.natKeyAux] at h
  | succ fuel ih =>
    intro n b h
    simp only [Bson.natKeyAux] at h
    by_cases hn : n < 10
    · rw [if_pos hn] at h
      simp only [List.mem_cons, List.not_mem_nil, or_false] at h
      omega
    · rw [if_neg hn] at h
      rcases List.mem_append.mp h with h | h
      · exact ih _ _ h
      · simp only [List.mem_cons, List.not_mem_nil, or_false] at h
        have : n % 10 < 10 := Nat.mod_lt _ (by omega)
        omega

theorem Bson.natKey_zero_not_mem (n : Nat) : ¬0 ∈ Bson.natKey n := by
  intro h
  have := Bson.natKeyAux_digits (n + 1) n 0 h
  omega

theorem Bson.natKey_contains_zero (n : Nat) :
    (Bson.natKey n).contains 0 = false := by
  have h := Bson.natKey_zero_not_mem n
  simp only [List.contains, List.elem_eq_mem, decide_eq_false_iff_not]
  exact h

theorem Bson.digitsVal_append (xs : WireBytes.Bytes) (d : Nat) :
    Bson.digitsVal (xs ++ [d]) = Bson.digitsVal xs * 10 + (d - 48) := by
  simp [Bson.digitsVal, List.foldl_append]

theorem Bson.natKeyAux_val :
    ∀ (fuel n : Nat), n ≤ fuel →
      Bson.digitsVal (Bson.natKeyAux (fuel + 1) n) = n := by
  intro fuel
  induction fuel using Nat.strong_induction_on with
  | _ fuel ih =>
    intro n hn
    simp only [Bson.natKeyAux]
    by_cases h10 : n < 10
    · rw [if_pos h10]
      simp [Bson.digitsVal]
    · rw [if_neg h10]
      obtain ⟨fuel2, rfl⟩ : ∃ f2, fuel = f2 + 1 := by
        refine ⟨fuel - 1, ?_⟩
        omega
      have hrec := ih fuel2 (by omega) (n / 10) (by omega)
      rw [Bson.digitsVal_append, hrec]
      omega

theorem Bson.digitsVal_natKey (n : Nat) : Bson.digitsVal (Bson.natKey n) = n :=
  Bson.natKeyAux_val n n (le_refl n)

theorem Bson.natKey_inj (a b : Nat) (h : Bson.natKey a = Bson.natKey b) :
    a = b := by
  have := congrArg Bson.digitsVal h
  rwa [Bson.digitsVal_natKey, Bson.digitsVal_natKey] at this

theorem Bson.setEntry_append (doc : List (WireBytes.Bytes × Bson.BsonValue))
    (k : WireBytes.Bytes) (v : Bson.BsonValue)
    (h : ∀ kv ∈ doc, kv.1 ≠ k) :
    Bson.setEntry doc k v = doc ++ [(k, v)] := by
  induction doc with
  | nil => rfl
  | cons kv rest ih =>
    obtain ⟨k0, v0⟩ := kv
    have hne : ¬(k0 = k) := h (k0, v0) (by simp)
    simp only [Bson.setEntry, if_neg hne, List.cons_append, List.cons.injEq,
      true_and]
    exact ih (fun x hx => h x (by simp [hx]))

theorem Bson.encodeIndexedItems_eq :
    ∀ (items : List Bson.BsonValue) (idx : Nat),
      Bson.encodeIndexedItems idx items =
        Bson.encodeElements (Bson.indexEntries idx items) := by
  intro items
  induction items with
  | nil => intro idx; simp [Bson.encodeIndexedItems, Bson.indexEntries, Bson.encodeElements]
  | cons v rest ih =>
    intro idx
    simp only [Bson.encodeIndexedItems, Bson.indexEntries,
      Bson.encodeElements, ih (idx + 1)]

theorem Bson.indexEntries_map_snd :
    ∀ (items : List Bson.BsonValue) (idx : Nat),
      (Bson.indexEntries idx items).map (fun kv => kv.2) = items := by
  intro items
  induction items with
  | nil => intro idx; simp [Bson.indexEntries]
  | cons v rest ih =>
    intro idx
    simp only [Bson.indexEntries, List.map_cons, ih (idx + 1)]

theorem Bson.sizeE_indexEntries :
    ∀ (items : List Bson.BsonValue) (idx : Nat),
      Bson.sizeE (Bson.indexEntries idx items) = Bson.sizeL items := by
  intro items
  induction items with
  | nil => intro idx; simp [Bson.indexEntries, Bson.sizeE, Bson.sizeL]
  | cons v rest ih =>
    intro idx
    simp only [Bson.indexEntries, Bson.sizeE, Bson.sizeL, ih (idx + 1)]

theorem Bson.needEntries_indexEntries :
    ∀ (items : List Bson.BsonValue) (idx : Nat),
      Bson.needEntries (Bson.indexEntries idx items) = Bson.needItems items := by
  intro items
  induction items with
  | nil => intro idx; simp [Bson.indexEntries, Bson.needEntries, Bson.needItems]
  | cons v rest ih =>
    intro idx
    simp only [Bson.indexEntries, Bson.needEntries, Bson.needItems,
      ih (idx + 1)]

theorem Bson.wfEntries_indexEntries :
    ∀ (items : List Bson.BsonValue) (idx : Nat),
      Bson.wfItems items = true →
      Bson.wfEntries (Bson.indexEntries idx items) = true := by
  intro items
  induction items with
  | nil => intro idx _; simp [Bson.indexEntries, Bson.wfEntries]
  | cons v rest ih =>
    intro idx h
    simp only [Bson.wfItems, Bool.and_eq_true] at h
    simp only [Bson.indexEntries, Bson.wfEntries, Bson.natKey_contains_zero,
      Bool.not_false, Bool.true_and, Bool.and_eq_true]
    exact ⟨h.1, ih (idx + 1) h.2⟩

theorem Bson.indexEntries_keys (items : List Bson.BsonValue) :
    ∀ (idx : Nat) (k : WireBytes.Bytes),
      k ∈ (Bson.indexEntries idx items).map (fun kv => kv.1) →
      ∃ j, idx ≤ j ∧ k = Bson.natKey j := by
  induction items with
  | nil => intro idx k h; simp [Bson.indexEntries] at h
  | cons v rest ih =>
    intro idx k h
    simp only [Bson.indexEntries, List.map_cons, List.mem_cons] at h
    rcases h with h | h
    · exact ⟨idx, le_refl idx, h⟩
    · obtain ⟨j, hj, hk⟩ := ih (idx + 1) k h
      exact ⟨j, by omega, hk⟩

theorem Bson.nodupKeys_indexEntries :
    ∀ (items : List Bson.BsonValue) (idx : Nat),
      Bson.nodupKeys ((Bson.indexEntries idx items).map (fun kv => kv.1)) =
        true := by
  intro items
  induction items with
  | nil => intro idx; simp [Bson.indexEntries, Bson.nodupKeys]
  | cons v rest ih =>
    intro idx
    simp only [Bson.indexEntries, List.map_cons, Bson.nodupKeys,
      Bool.and_eq_true, Bool.not_eq_true']
    refine ⟨?_, ih (idx + 1)⟩
    simp only [List.contains, List.elem_eq_mem, decide_eq_false_iff_not]
    intro hmem
    obtain ⟨j, hj, hk⟩ := Bson.indexEntries_keys rest (idx + 1)
      (Bson.natKey idx) hmem
    have := Bson.natKey_inj idx j hk
    omega

theorem Bson.decode_vnull (fuel : Nat) (pre post : WireBytes.Bytes) :
    Bson.decodeValue fuel (pre ++ Bson.encValuePayload .vnull ++ post)
      pre.length (Bson.tagOf .vnull) =
      .ok (.vnull, pre.length + (Bson.encValuePayload .vnull).length) := by
  simp only [Bson.encValuePayload, Bson.tagOf, List.nil_append,
    List.append_nil, List.length_nil, Nat.add_zero]
  unfold Bson.decodeValue
  norm_num

theorem Bson.decode_vbool (fuel : Nat) (b : Bool) (pre post : WireBytes.Bytes) :
    Bson.decodeValue fuel (pre ++ Bson.encValuePayload (.vbool b) ++ post)
      pre.length (Bson.tagOf (.vbool b)) =
      .ok (.vbool b, pre.length + (Bson.encValuePayload (.vbool b)).length) := by
  have h1 := WireBytes.byteAt_shift pre ([1] ++ post) 0
  have h0 := WireBytes.byteAt_shift pre ([0] ++ post) 0
  simp only [Nat.add_zero, List.singleton_append] at h1 h0
  have hv1 : WireBytes.byteAt (1 :: post) 0 = 1 := rfl
  have hv0 : WireBytes.byteAt (0 :: post) 0 = 0 := rfl
  rw [hv1] at h1
  rw [hv0] at h0
  cases b <;>
    · simp only [Bson.encValuePayload, Bson.tagOf, if_pos, if_neg,
        List.singleton_append, List.length_cons, List.length_nil]
      unfold Bson.decodeValue
      norm_num [h1, h0]

theorem Bson.decode_vint (fuel : Nat) (n : Int) (pre post : WireBytes.Bytes)
    (hlo : -2147483648 ≤ n) (hhi : n ≤ 2147483647) :
    Bson.decodeValue fuel (pre ++ Bson.encValuePayload (.vint n) ++ post)
      pre.length (Bson.tagOf (.vint n)) =
      .ok (.vint n, pre.length + (Bson.encValuePayload (.vint n)).length) := by
  have hread : WireBytes.readInt32LE
      (pre ++ (WireBytes.int32le n ++ post)) pre.length = n := by
    have h2 := WireBytes.readInt32LE_shift pre (WireBytes.int32le n ++ post) 0
    simp only [Nat.add_zero] at h2
    rw [h2, WireBytes.readInt32LE_int32le n post hlo (by omega)]
  simp only [Bson.encValuePayload, Bson.tagOf, if_pos (And.intro hlo hhi),
    List.append_assoc, WireBytes.int32le_length]
  unfold Bson.decodeValue
  norm_num [hread]

theorem Bson.decode_vdouble (fuel : Nat) (bits pre post : WireBytes.Bytes)
    (hlen : bits.length = 8) :
    Bson.decodeValue fuel (pre ++ Bson.encValuePayload (.vdouble bits) ++ post)
      pre.length (Bson.tagOf (.vdouble bits)) =
      .ok (.vdouble bits,
        pre.length + (Bson.encValuePayload (.vdouble bits)).length) := by
  have hsl : ((pre ++ (bits ++ post)).take (pre.length + 8)).drop pre.length =
      bits := by
    have h2 := WireBytes.take_drop_shift pre (bits ++ post) 8 0
    simp only [Nat.add_zero] at h2
    rw [h2, List.drop_zero, ← hlen, List.take_left]
  simp only [Bson.encValuePayload, Bson.tagOf, List.append_assoc, hlen]
  unfold Bson.decodeValue
  norm_num [hsl]

theorem Bson.decode_vdate (fuel : Nat) (ms : Int) (pre post : WireBytes.Bytes)
    (hlo : -(2 ^ 63) ≤ ms) (hhi : ms < 2 ^ 63) :
    Bson.decodeValue fuel (pre ++ Bson.encValuePayload (.vdate ms) ++ post)
      pre.length (Bson.tagOf (.vdate ms)) =
      .ok (.vdate ms, pre.length + (Bson.encValuePayload (.vdate ms)).length) := by
  have hread : WireBytes.readInt64LE
      (pre ++ (WireBytes.int64le ms ++ post)) pre.length = ms := by
    have h2 := WireBytes.readInt64LE_shift pre (WireBytes.int64le ms ++ post) 0
    simp only [Nat.add_zero] at h2
    rw [h2, WireBytes.readInt64LE_int64le ms post hlo hhi]
  simp only [Bson.encValuePayload, Bson.tagOf, List.append_assoc,
    WireBytes.int64le_length]
  unfold Bson.decodeValue
  norm_num [hread]

theorem Bson.decode_objectId (fuel : Nat) (b pre post : WireBytes.Bytes)
    (hlen : b.length = 12) :
    Bson.decodeValue fuel (pre ++ Bson.encValuePayload (.objectId b) ++ post)
      pre.length (Bson.tagOf (.objectId b)) =
      .ok (.objectId b,
        pre.length + (Bson.encValuePayload (.objectId b)).length) := by
  have hpay : Bson.encValuePayload (.objectId b) = b := by
    simp only [Bson.encValuePayload, hlen]
    rw [List.take_of_length_le (by omega), Nat.sub_self]
    simp
  have hsl : ((pre ++ (b ++ post)).take (pre.length + 12)).drop pre.length =
      b := by
    have h2 := WireBytes.take_drop_shift pre (b ++ post) 12 0
    simp only [Nat.add_zero] at h2
    rw [h2, List.drop_zero, ← hlen, List.take_left]
  rw [hpay]
  simp only [Bson.tagOf, List.append_assoc, hlen]
  unfold Bson.decodeValue
  norm_num [hsl]

theorem Bson.decode_vstr (fuel : Nat) (s pre post : WireBytes.Bytes)
    (h : s.length + 1 < 2 ^ 31) :
    Bson.decodeValue fuel (pre ++ Bson.encValuePayload (.vstr s) ++ post)
      pre.length (Bson.tagOf (.vstr s)) =
      .ok (.vstr s, pre.length + (Bson.encValuePayload (.vstr s)).length) := by
  have hread : WireBytes.readInt32LE
      (pre ++ (Bson.encValuePayload (.vstr s) ++ post)) pre.length =
      ((s.length + 1 : Nat) : Int) := by
    have h2 := WireBytes.readInt32LE_shift pre
      (Bson.encValuePayload (.vstr s) ++ post) 0
    simp only [Nat.add_zero] at h2
    rw [h2]
    simp only [Bson.encValuePayload, List.append_assoc]
    rw [WireBytes.readInt32LE_int32le ((s.length + 1 : Nat) : Int)
      (s ++ ([0] ++ post)) (by omega) (by omega)]
  have hB : pre ++ (Bson.encValuePayload (.vstr s) ++ post) =
      (pre ++ WireBytes.int32le ((s.length + 1 : Nat) : Int)) ++
        (s ++ (0 :: post)) := by
    simp [Bson.encValuePayload, List.append_assoc]
  have hsl : ((pre ++ (Bson.encValuePayload (.vstr s) ++ post)).take
      (pre.length + 4 + s.length)).drop (pre.length + 4) = s := by
    have h4 : (pre ++ WireBytes.int32le ((s.length + 1 : Nat) : Int)).length =
        pre.length + 4 := by simp [WireBytes.int32le_length]
    have h3 := WireBytes.take_drop_shift
      (pre ++ WireBytes.int32le ((s.length + 1 : Nat) : Int))
      (s ++ (0 :: post)) s.length 0
    rw [h4] at h3
    simp only [Nat.add_zero] at h3
    rw [hB, h3, List.drop_zero, List.take_left]
  have hlen : (Bson.encValuePayload (.vstr s)).length = 4 + (s.length + 1) := by
    simp [Bson.encValuePayload, WireBytes.int32le_length]
  simp only [Bson.tagOf]
  rw [List.append_assoc]
  unfold Bson.decodeValue
  rw [if_neg (by norm_num), if_pos rfl]
  dsimp only
  rw [hread]
  simp only [Int.toNat_natCast]
  rw [show pre.length + 4 + (s.length + 1) - 1 = pre.length + 4 + s.length by
    omega]
  rw [hsl, hlen, Nat.add_assoc]

theorem Bson.decode_vbinary (fuel : Nat) (d pre post : WireBytes.Bytes)
    (h : d.length < 2 ^ 31) :
    Bson.decodeValue fuel (pre ++ Bson.encValuePayload (.vbinary d) ++ post)
      pre.length (Bson.tagOf (.vbinary d)) =
      .ok (.vbinary d,
        pre.length + (Bson.encValuePayload (.vbinary d)).length) := by
  have hread : WireBytes.readInt32LE
      (pre ++ (Bson.encValuePayload (.vbinary d) ++ post)) pre.length =
      ((d.length : Nat) : Int) := by
    have h2 := WireBytes.readInt32LE_shift pre
      (Bson.encValuePayload (.vbinary d) ++ post) 0
    simp only [Nat.add_zero] at h2
    rw [h2]
    simp only [Bson.encValuePayload, List.append_assoc]
    rw [WireBytes.readInt32LE_int32le ((d.length : Nat) : Int)
      ([0] ++ (d ++ post)) (by omega) (by omega)]
  have hB : pre ++ (Bson.encValuePayload (.vbinary d) ++ post) =
      (pre ++ (WireBytes.int32le ((d.length : Nat) : Int) ++ [0])) ++
        (d ++ post) := by
    simp [Bson.encValuePayload, List.append_assoc]
  have hsl : ((pre ++ (Bson.encValuePayload (.vbinary d) ++ post)).take
      (pre.length + 5 + d.length)).drop (pre.length + 5) = d := by
    have h4 :
        (pre ++ (WireBytes.int32le ((d.length : Nat) : Int) ++ [0])).length =
        pre.length + 5 := by simp [WireBytes.int32le_length]
    have h3 := WireBytes.take_drop_shift
      (pre ++ (WireBytes.int32le ((d.length : Nat) : Int) ++ [0]))
      (d ++ post) d.length 0
    rw [h4] at h3
    simp only [Nat.add_zero] at h3
    rw [hB, h3, List.drop_zero, List.take_left]
  have hlen : (Bson.encValuePayload (.vbinary d)).length = 5 + d.length := by
    simp [Bson.encValuePayload, WireBytes.int32le_length]
    omega
  simp only [Bson.tagOf]
  rw [List.append_assoc]
  unfold Bson.decodeValue
  rw [if_neg (by norm_num), if_neg (by norm_num), if_neg (by norm_num),
    if_neg (by norm_num), if_pos rfl]
  dsimp only
  rw [hread]
  simp only [Int.toNat_natCast]
  rw [hsl, hlen, Nat.add_assoc]


/-- Joint decode-of-encode statement for values and element lists, by
strong induction on nesting size: a well-formed encoded value decodes to
itself, and the element loop over an encoded element list appends exactly
those entries. -/
theorem Bson.roundtrip_aux : ∀ (n : Nat),
    (∀ (v : Bson.BsonValue) (pre post : WireBytes.Bytes) (fuel : Nat),
      Bson.sizeV v ≤ n → Bson.wfValue v = true → Bson.needValue v ≤ fuel →
      Bson.decodeValue fuel (pre ++ Bson.encValuePayload v ++ post)
        pre.length (Bson.tagOf v) =
        .ok (v, pre.length + (Bson.encValuePayload v).length)) ∧
    (∀ (entries : List (WireBytes.Bytes × Bson.BsonValue))
      (pre post : WireBytes.Bytes)
      (acc : List (WireBytes.Bytes × Bson.BsonValue)) (fuel : Nat),
      Bson.sizeE entries ≤ n →
      Bson.wfEntries entries = true →
      Bson.nodupKeys (entries.map (fun kv => kv.1)) = true →
      (∀ kv ∈ acc, ∀ kw ∈ entries, kv.1 ≠ kw.1) →
      Bson.needEntries entries ≤ fuel →
      Bson.decodeLoop fuel (pre ++ Bson.encodeElements entries ++ 0 :: post)
        ((pre.length + (Bson.encodeElements entries).length : Nat) : Int)
        pre.length acc = .ok (acc ++ entries)) := by
  intro n
  induction n using Nat.strong_induction_on with
  | _ n ih =>
    constructor
    · intro v pre post fuel hsv hwf hfuel
      cases v with
      | vnull => exact Bson.decode_vnull fuel pre post
      | vbool b => exact Bson.decode_vbool fuel b pre post
      | vint n =>
        simp only [Bson.wfValue, Bool.and_eq_true, decide_eq_true_eq] at hwf
        exact Bson.decode_vint fuel n pre post hwf.1 hwf.2
      | vdouble bits =>
        simp only [Bson.wfValue, beq_iff_eq] at hwf
        exact Bson.decode_vdouble fuel bits pre post hwf
      | vstr s =>
        simp only [Bson.wfValue, decide_eq_true_eq] at hwf
        exact Bson.decode_vstr fuel s pre post hwf
      | vdate ms =>
        simp only [Bson.wfValue, Bool.and_eq_true, decide_eq_true_eq] at hwf
        exact Bson.decode_vdate fuel ms pre post hwf.1 hwf.2
      | objectId b =>
        simp only [Bson.wfValue, beq_iff_eq] at hwf
        exact Bson.decode_objectId fuel b pre post hwf
      | vbinary d =>
        simp only [Bson.wfValue, decide_eq_true_eq] at hwf
        exact Bson.decode_vbinary fuel d pre post hwf
      | vdoc entries =>
        simp only [Bson.wfValue, Bool.and_eq_true, decide_eq_true_eq] at hwf
        obtain ⟨⟨hwe, hnd⟩, hsz⟩ := hwf
        simp only [Bson.needValue] at hfuel
        obtain ⟨g, rfl⟩ : ∃ g, fuel = g + 1 := ⟨fuel - 1, by omega⟩
        have hread : WireBytes.readInt32LE
            (pre ++ (Bson.encValuePayload (.vdoc entries) ++ post)) pre.length =
            ((4 + (Bson.encodeElements entries).length + 1 : Nat) : Int) := by
          have h2 := WireBytes.readInt32LE_shift pre
            (Bson.encValuePayload (.vdoc entries) ++ post) 0
          simp only [Nat.add_zero] at h2
          rw [h2]
          simp only [Bson.encValuePayload, Bson.wrapDoc, List.append_assoc]
          exact WireBytes.readInt32LE_int32le _ _ (by omega) (by omega)
        have hEnd : ((pre.length : Int) +
            ((4 + (Bson.encodeElements entries).length + 1 : Nat) : Int) - 1) =
            ((pre.length + 4 + (Bson.encodeElements entries).length : Nat) :
              Int) := by
          push_cast
          omega
        have hB2 : pre ++ (Bson.encValuePayload (.vdoc entries) ++ post) =
            (pre ++ WireBytes.int32le
                ((4 + (Bson.encodeElements entries).length + 1 : Nat) : Int)) ++
              Bson.encodeElements entries ++ 0 :: post := by
          simp [Bson.encValuePayload, Bson.wrapDoc, List.append_assoc]
        have hpos4 : pre.length + 4 =
            (pre ++ WireBytes.int32le
              ((4 + (Bson.encodeElements entries).length + 1 : Nat) :
                Int)).length := by
          simp [WireBytes.int32le_length]
        have hlt : Bson.sizeE entries < n := by
          simp only [Bson.sizeV] at hsv
          omega
        have hloop := (ih (Bson.sizeE entries) hlt).2 entries
          (pre ++ WireBytes.int32le
            ((4 + (Bson.encodeElements entries).length + 1 : Nat) : Int))
          post [] g (le_refl _) hwe hnd (by intro kv hkv kw hkw; simp at hkv)
          (by omega)
        have hplen : (Bson.encValuePayload (.vdoc entries)).length =
            4 + (Bson.encodeElements entries).length + 1 := by
          simp only [Bson.encValuePayload, Bson.wrapDoc, List.length_append,
            WireBytes.int32le_length, List.length_cons, List.length_nil]
        simp only [Bson.tagOf]
        rw [List.append_assoc]
        unfold Bson.decodeValue
        rw [if_neg (by norm_num), if_neg (by norm_num), if_pos rfl]
        dsimp only
        rw [hread]
        simp only [Int.toNat_natCast]
        rw [hEnd, hB2, hpos4, hloop]
        simp only [List.nil_append]
        rw [hplen]
      | varray items =>
        simp only [Bson.wfValue, Bool.and_eq_true, decide_eq_true_eq] at hwf
        obtain ⟨hwi, hszi⟩ := hwf
        simp only [Bson.needValue] at hfuel
        obtain ⟨g, rfl⟩ : ∃ g, fuel = g + 1 := ⟨fuel - 1, by omega⟩
        have hwe := Bson.wfEntries_indexEntries items 0 hwi
        have hnd := Bson.nodupKeys_indexEntries items 0
        have hEq := Bson.encodeIndexedItems_eq items 0
        have hsz : (Bson.encodeElements (Bson.indexEntries 0 items)).length + 5 <
            2 ^ 31 := by rw [← hEq]; exact hszi
        have hPay : Bson.encValuePayload (.varray items) =
            Bson.wrapDoc (Bson.encodeElements (Bson.indexEntries 0 items)) := by
          simp only [Bson.encValuePayload, hEq]
        rw [hPay]
        have hread : WireBytes.readInt32LE
            (pre ++ (Bson.wrapDoc
              (Bson.encodeElements (Bson.indexEntries 0 items)) ++ post))
            pre.length =
            ((4 + (Bson.encodeElements (Bson.indexEntries 0 items)).length + 1 :
              Nat) : Int) := by
          have h2 := WireBytes.readInt32LE_shift pre
            (Bson.wrapDoc (Bson.encodeElements (Bson.indexEntries 0 items)) ++
              post) 0
          simp only [Nat.add_zero] at h2
          rw [h2]
          simp only [Bson.wrapDoc, List.append_assoc]
          exact WireBytes.readInt32LE_int32le _ _ (by omega) (by omega)
        have hEnd : ((pre.length : Int) +
            ((4 + (Bson.encodeElements (Bson.indexEntries 0 items)).length + 1 :
              Nat) : Int) - 1) =
            ((pre.length + 4 +
              (Bson.encodeElements (Bson.indexEntries 0 items)).length : Nat) :
              Int) := by
          push_cast
          omega
        have hB2 : pre ++ (Bson.wrapDoc
            (Bson.encodeElements (Bson.indexEntries 0 items)) ++ post) =
            (pre ++ WireBytes.int32le
                ((4 + (Bson.encodeElements (Bson.indexEntries 0 items)).length +
                  1 : Nat) : Int)) ++
              Bson.encodeElements (Bson.indexEntries 0 items) ++ 0 :: post := by
          simp [Bson.wrapDoc, List.append_assoc]
        have hpos4 : pre.length + 4 =
            (pre ++ WireBytes.int32le
              ((4 + (Bson.encodeElements (Bson.indexEntries 0 items)).length +
                1 : Nat) : Int)).length := by
          simp [WireBytes.int32le_length]
        have hfl : Bson.needEntries (Bson.indexEntries 0 items) ≤ g := by
          rw [Bson.needEntries_indexEntries]
          omega
        have hlt : Bson.sizeE (Bson.indexEntries 0 items) < n := by
          rw [Bson.sizeE_indexEntries]
          simp only [Bson.sizeV] at hsv
          omega
        have hloop := (ih (Bson.sizeE (Bson.indexEntries 0 items)) hlt).2
          (Bson.indexEntries 0 items)
          (pre ++ WireBytes.int32le
            ((4 + (Bson.encodeElements (Bson.indexEntries 0 items)).length + 1 :
              Nat) : Int))
          post [] g (le_refl _) hwe hnd (by intro kv hkv kw hkw; simp at hkv)
          hfl
        have hplen : (Bson.wrapDoc
            (Bson.encodeElements (Bson.indexEntries 0 items))).length =
            4 + (Bson.encodeElements (Bson.indexEntries 0 items)).length + 1 := by
          simp only [Bson.wrapDoc, List.length_append, WireBytes.int32le_length,
            List.length_cons, List.length_nil]
        simp only [Bson.tagOf]
        rw [List.append_assoc]
        unfold Bson.decodeValue
        rw [if_neg (by norm_num), if_neg (by norm_num), if_neg (by norm_num),
          if_pos rfl]
        dsimp only
        rw [hread]
        simp only [Int.toNat_natCast]
        rw [hEnd, hB2, hpos4, hloop]
        simp only [List.nil_append, Bson.indexEntries_map_snd]
        rw [hplen]
    · intro entries pre post acc fuel hse hwf hnd hfresh hfuel
      cases entries with
      | nil =>
        obtain ⟨g, rfl⟩ : ∃ g, fuel = g + 1 := by
          refine ⟨fuel - 1, ?_⟩
          simp only [Bson.needEntries] at hfuel
          omega
        unfold Bson.decodeLoop
        rw [if_neg (by simp [Bson.encodeElements])]
        simp [Bson.encodeElements]
      | cons kv rest =>
        obtain ⟨k, v⟩ := kv
        simp only [Bson.sizeE] at hse
        simp only [Bson.wfEntries, Bool.and_eq_true, Bool.not_eq_true'] at hwf
        obtain ⟨⟨hk0, hwv⟩, hwr⟩ := hwf
        simp only [List.map_cons, Bson.nodupKeys, Bool.and_eq_true,
          Bool.not_eq_true'] at hnd
        obtain ⟨hkr, hndr⟩ := hnd
        simp only [Bson.needEntries] at hfuel
        obtain ⟨g, rfl⟩ : ∃ g, fuel = g + 1 := ⟨fuel - 1, by omega⟩
        have hner : 1 ≤ Bson.needEntries rest := by
          cases rest with
          | nil => simp [Bson.needEntries]
          | cons a b =>
            obtain ⟨a1, a2⟩ := a
            simp only [Bson.needEntries]
            omega
        have hk0mem : ¬(0 : Nat) ∈ k := by
          simp only [List.contains, List.elem_eq_mem, decide_eq_false_iff_not]
            at hk0
          exact hk0
        have hkrmem : ¬k ∈ rest.map (fun kv => kv.1) := by
          simp only [List.contains, List.elem_eq_mem, decide_eq_false_iff_not]
            at hkr
          exact hkr
        have hB2 : pre ++ Bson.encodeElements ((k, v) :: rest) ++ 0 :: post =
            (pre ++ [Bson.tagOf v]) ++ (k ++ 0 :: (Bson.encValuePayload v ++
              (Bson.encodeElements rest ++ 0 :: post))) := by
          simp [Bson.encodeElements, Bson.encodeElement, List.append_assoc]
        have hlen2 : (pre ++ [Bson.tagOf v]).length = pre.length + 1 := by
          simp
        have f1 : WireBytes.byteAt
            (pre ++ Bson.encodeElements ((k, v) :: rest) ++ 0 :: post)
            pre.length = Bson.tagOf v := by
          rw [hB2, List.append_assoc]
          have h6 := WireBytes.byteAt_shift pre
            ([Bson.tagOf v] ++ (k ++ 0 :: (Bson.encValuePayload v ++
              (Bson.encodeElements rest ++ 0 :: post)))) 0
          simp only [Nat.add_zero] at h6
          rw [h6]
          rfl
        have f2 : WireBytes.jsIndexOf
            (pre ++ Bson.encodeElements ((k, v) :: rest) ++ 0 :: post) 0
            (pre.length + 1) = ((pre.length + 1 + k.length : Nat) : Int) := by
          have h6 := WireBytes.jsIndexOf_append (pre ++ [Bson.tagOf v]) k
            (Bson.encValuePayload v ++ (Bson.encodeElements rest ++ 0 :: post))
            hk0mem
          rw [hlen2] at h6
          rw [hB2]
          exact h6
        have f3 : ((pre ++ Bson.encodeElements ((k, v) :: rest) ++
            0 :: post).take (pre.length + 1 + k.length)).drop (pre.length + 1) =
            k := by
          have h7 := WireBytes.take_drop_shift (pre ++ [Bson.tagOf v])
            (k ++ 0 :: (Bson.encValuePayload v ++
              (Bson.encodeElements rest ++ 0 :: post))) k.length 0
          rw [hlen2] at h7
          simp only [Nat.add_zero] at h7
          rw [hB2, h7, List.drop_zero, List.take_left]
        have hB4 : pre ++ Bson.encodeElements ((k, v) :: rest) ++ 0 :: post =
            (pre ++ [Bson.tagOf v] ++ k ++ [0]) ++ Bson.encValuePayload v ++
              (Bson.encodeElements rest ++ 0 :: post) := by
          simp [Bson.encodeElements, Bson.encodeElement, List.append_assoc]
        have hlen4 : (pre ++ [Bson.tagOf v] ++ k ++ [0]).length =
            pre.length + 1 + k.length + 1 := by
          simp
          omega
        have f4 : Bson.decodeValue g
            (pre ++ Bson.encodeElements ((k, v) :: rest) ++ 0 :: post)
            (pre.length + 1 + k.length + 1) (Bson.tagOf v) =
            .ok (v, pre.length + 1 + k.length + 1 +
              (Bson.encValuePayload v).length) := by
          have h5 := (ih (Bson.sizeV v) (by omega)).1 v
            (pre ++ [Bson.tagOf v] ++ k ++ [0])
            (Bson.encodeElements rest ++ 0 :: post) g (le_refl _) hwv (by omega)
          rw [hlen4] at h5
          rw [hB4]
          exact h5
        have f5 : Bson.setEntry acc k v = acc ++ [(k, v)] :=
          Bson.setEntry_append acc k v (fun kv hkv =>
            hfresh kv hkv (k, v) (List.mem_cons_self _ _))
        have hB6 : pre ++ Bson.encodeElements ((k, v) :: rest) ++ 0 :: post =
            (pre ++ Bson.encodeElement k v) ++ Bson.encodeElements rest ++
              0 :: post := by
          simp [Bson.encodeElements, Bson.encodeElement, List.append_assoc]
        have hlen6 : (pre ++ Bson.encodeElement k v).length =
            pre.length + 1 + k.length + 1 + (Bson.encValuePayload v).length := by
          simp only [Bson.encodeElement, List.length_append, List.length_cons,
            List.length_nil]
          omega
        have hfresh6 : ∀ kv ∈ acc ++ [(k, v)], ∀ kw ∈ rest, kv.1 ≠ kw.1 := by
          intro kv hkv kw hkw
          rcases List.mem_append.mp hkv with hin | hin
          · exact hfresh kv hin kw (List.mem_cons_of_mem _ hkw)
          · simp only [List.mem_cons, List.not_mem_nil, or_false] at hin
            subst hin
            intro hEq
            refine hkrmem ?_
            have hEq2 : k = kw.1 := hEq
            rw [hEq2]
            exact List.mem_map_of_mem _ hkw
        have frec := (ih (Bson.sizeE rest) (by omega)).2 rest
          (pre ++ Bson.encodeElement k v) post
          (acc ++ [(k, v)]) g (le_refl _) hwr hndr hfresh6 (by omega)
        rw [hlen6, ← hB6] at frec
        have hacc : acc ++ [(k, v)] ++ rest = acc ++ (k, v) :: rest := by
          simp
        rw [hacc] at frec
        have hEndEq : pre.length + (Bson.encodeElements ((k, v) :: rest)).length =
            pre.length + 1 + k.length + 1 + (Bson.encValuePayload v).length +
              (Bson.encodeElements rest).length := by
          simp only [Bson.encodeElements, Bson.encodeElement, List.length_append,
            List.length_cons, List.length_nil]
          omega
        have hcond : ((pre.length : Nat) : Int) <
            ((pre.length + (Bson.encodeElements ((k, v) :: rest)).length : Nat) :
              Int) := by
          have hpos : 0 < (Bson.encodeElements ((k, v) :: rest)).length := by
            simp only [Bson.encodeElements, Bson.encodeElement,
              List.length_append, List.length_cons, List.length_nil]
            omega
          exact_mod_cast Nat.lt_add_of_pos_right hpos
        unfold Bson.decodeLoop
        rw [if_pos hcond]
        dsimp only
        rw [f1, f2]
        simp only [Int.toNat_natCast]
        rw [f3, f4]
        dsimp only
        rw [f5, hEndEq]
        exact frec

/-- Decoding an encoded value payload at its position inside any buffer
recovers the value and ends exactly after the payload. -/
theorem Bson.decode_value (v : Bson.BsonValue) (pre post : WireBytes.Bytes)
    (fuel : Nat) (hwf : Bson.wfValue v = true)
    (hfuel : Bson.needValue v ≤ fuel) :
    Bson.decodeValue fuel (pre ++ Bson.encValuePayload v ++ post) pre.length
      (Bson.tagOf v) =
      .ok (v, pre.length + (Bson.encValuePayload v).length) :=
  (Bson.roundtrip_aux (Bson.sizeV v)).1 v pre post fuel (le_refl _) hwf hfuel

/-- The decode loop over an encoded element list followed by the document
terminator consumes exactly the elements and appends them, in order, to the
accumulated entries. -/
theorem Bson.decode_loop
    (entries : List (WireBytes.Bytes × Bson.BsonValue))
    (pre post : WireBytes.Bytes)
    (acc : List (WireBytes.Bytes × Bson.BsonValue)) (fuel : Nat)
    (hwf : Bson.wfEntries entries = true)
    (hnd : Bson.nodupKeys (entries.map (fun kv => kv.1)) = true)
    (hfresh : ∀ kv ∈ acc, ∀ kw ∈ entries, kv.1 ≠ kw.1)
    (hfuel : Bson.needEntries entries ≤ fuel) :
    Bson.decodeLoop fuel (pre ++ Bson.encodeElements entries ++ 0 :: post)
      ((pre.length + (Bson.encodeElements entries).length : Nat) : Int)
      pre.length acc = .ok (acc ++ entries) :=
  (Bson.roundtrip_aux (Bson.sizeE entries)).2 entries pre post acc fuel
    (le_refl _) hwf hnd hfresh hfuel

/-- The fuel `decodeBson` derives from the buffer length is always enough:
the fuel a value or element list needs is bounded by its encoded length
plus one. -/
theorem Bson.need_le_aux : ∀ (n : Nat),
    (∀ v : Bson.BsonValue, Bson.sizeV v ≤ n →
      Bson.needValue v ≤ (Bson.encValuePayload v).length + 1) ∧
    (∀ entries : List (WireBytes.Bytes × Bson.BsonValue),
      Bson.sizeE entries ≤ n →
      Bson.needEntries entries ≤ (Bson.encodeElements entries).length + 1) := by
  intro n
  induction n using Nat.strong_induction_on with
  | _ n ih =>
    constructor
    · intro v hsv
      cases v with
      | vnull => simp [Bson.needValue]
      | vbool b => simp [Bson.needValue]
      | vint m => simp [Bson.needValue]
      | vdouble bits => simp [Bson.needValue]
      | vstr s => simp [Bson.needValue]
      | vdate ms => simp [Bson.needValue]
      | objectId b => simp [Bson.needValue]
      | vbinary d => simp [Bson.needValue]
      | vdoc entries =>
        simp only [Bson.sizeV] at hsv
        have h1 := (ih (Bson.sizeE entries) (by omega)).2 entries (le_refl _)
        simp only [Bson.needValue, Bson.encValuePayload, Bson.wrapDoc,
          List.length_append, WireBytes.int32le_length, List.length_cons,
          List.length_nil]
        omega
      | varray items =>
        simp only [Bson.sizeV] at hsv
        have h1 := (ih (Bson.sizeE (Bson.indexEntries 0 items))
          (by rw [Bson.sizeE_indexEntries]; omega)).2
          (Bson.indexEntries 0 items) (le_refl _)
        rw [Bson.needEntries_indexEntries, ← Bson.encodeIndexedItems_eq]
          at h1
        simp only [Bson.needValue, Bson.encValuePayload, Bson.wrapDoc,
          List.length_append, WireBytes.int32le_length, List.length_cons,
          List.length_nil]
        omega
    · intro entries hse
      cases entries with
      | nil => simp [Bson.needEntries, Bson.encodeElements]
      | cons kv rest =>
        obtain ⟨k, v⟩ := kv
        simp only [Bson.sizeE] at hse
        have h1 := (ih (Bson.sizeV v) (by omega)).1 v (le_refl _)
        have h2 := (ih (Bson.sizeE rest) (by omega)).2 rest (le_refl _)
        simp only [Bson.needEntries, Bson.encodeElements, Bson.encodeElement,
          List.length_append, List.length_cons, List.length_nil]
        omega

/-- **C1**: for every BSON document built only from values the encoder
supports (null, booleans, int32-range integers, doubles, strings, dates,
ObjectIds, binaries, arrays and nested documents, at any nesting depth),
`decodeBson (encodeBson d) 0` returns exactly `d`, key insertion order
included. -/
theorem bson_roundtrip (entries : List (WireBytes.Bytes × Bson.BsonValue))
    (hwf : Bson.wfDoc entries = true) :
    Bson.decodeBson (Bson.encodeBson entries) 0 = .ok entries := by
  simp only [Bson.wfDoc, Bool.and_eq_true, decide_eq_true_eq] at hwf
  obtain ⟨⟨hwe, hnd⟩, hsz⟩ := hwf
  have hB : Bson.encodeBson entries =
      WireBytes.int32le
        ((4 + (Bson.encodeElements entries).length + 1 : Nat) : Int) ++
        (Bson.encodeElements entries ++ [0]) := by
    simp [Bson.encodeBson, Bson.wrapDoc, List.append_assoc]
  have hread : WireBytes.readInt32LE (Bson.encodeBson entries) 0 =
      ((4 + (Bson.encodeElements entries).length + 1 : Nat) : Int) := by
    rw [hB]
    exact WireBytes.readInt32LE_int32le _ _ (by omega) (by omega)
  have hlen : (Bson.encodeBson entries).length =
      4 + (Bson.encodeElements entries).length + 1 := by
    simp only [Bson.encodeBson, Bson.wrapDoc, List.length_append,
      WireBytes.int32le_length, List.length_cons, List.length_nil]
  have hneed := (Bson.need_le_aux (Bson.sizeE entries)).2 entries (le_refl _)
  have hB2 : Bson.encodeBson entries =
      WireBytes.int32le
        ((4 + (Bson.encodeElements entries).length + 1 : Nat) : Int) ++
        Bson.encodeElements entries ++ 0 :: [] := by
    simp [Bson.encodeBson, Bson.wrapDoc, List.append_assoc]
  have hloop := Bson.decode_loop entries
    (WireBytes.int32le
      ((4 + (Bson.encodeElements entries).length + 1 : Nat) : Int))
    [] [] ((Bson.encodeBson entries).length + 1) hwe hnd
    (by intro kv hkv kw hkw; simp at hkv) (by omega)
  rw [← hB2] at hloop
  simp only [WireBytes.int32le_length, List.nil_append] at hloop
  unfold Bson.decodeBson Bson.decodeBsonAux
  rw [hread]
  rw [show (((0 : Nat) : Int) +
      ((4 + (Bson.encodeElements entries).length + 1 : Nat) : Int) - 1) =
      ((4 + (Bson.encodeElements entries).length : Nat) : Int) by
    push_cast
    omega]
  rw [show (0 + 4 : Nat) = 4 by omega]
  exact hloop

set_option maxRecDepth 8192 in
/-- Witness for `bson_roundtrip`: a concrete document using every supported
value variant, nested two levels deep, is well formed and round trips. -/
theorem bson_roundtrip_witness :
    Bson.wfDoc
      [([97], Bson.BsonValue.vint 42),
       ([98], Bson.BsonValue.vstr [104, 105]),
       ([99], Bson.BsonValue.varray [Bson.BsonValue.vbool true,
          Bson.BsonValue.vdoc [([100], Bson.BsonValue.vnull)]]),
       ([101], Bson.BsonValue.vdoc [([102], Bson.BsonValue.vdate 1000),
          ([103], Bson.BsonValue.objectId [1, 2, 3, 4, 5, 6, 7, 8, 9, 10,
            11, 12]),
          ([107], Bson.BsonValue.vbinary [5, 6]),
          ([108], Bson.BsonValue.vdouble [0, 0, 0, 0, 0, 0, 240, 63])])] =
      true ∧
    Bson.decodeBson (Bson.encodeBson
      [([97], Bson.BsonValue.vint 42),
       ([98], Bson.BsonValue.vstr [104, 105]),
       ([99], Bson.BsonValue.varray [Bson.BsonValue.vbool true,
          Bson.BsonValue.vdoc [([100], Bson.BsonValue.vnull)]]),
       ([101], Bson.BsonValue.vdoc [([102], Bson.BsonValue.vdate 1000),
          ([103], Bson.BsonValue.objectId [1, 2, 3, 4, 5, 6, 7, 8, 9, 10,
            11, 12]),
          ([107], Bson.BsonValue.vbinary [5, 6]),
          ([108], Bson.BsonValue.vdouble [0, 0, 0, 0, 0, 0, 240, 63])])]) 0 =
      .ok
      [([97], Bson.BsonValue.vint 42),
       ([98], Bson.BsonValue.vstr [104, 105]),
       ([99], Bson.BsonValue.varray [Bson.BsonValue.vbool true,
          Bson.BsonValue.vdoc [([100], Bson.BsonValue.vnull)]]),
       ([101], Bson.BsonValue.vdoc [([102], Bson.BsonValue.vdate 1000),
          ([103], Bson.BsonValue.objectId [1, 2, 3, 4, 5, 6, 7, 8, 9, 10,
            11, 12]),
          ([107], Bson.BsonValue.vbinary [5, 6]),
          ([108], Bson.BsonValue.vdouble [0, 0, 0, 0, 0, 0, 240, 63])])] :=
  ⟨by decide, bson_roundtrip
    [([97], Bson.BsonValue.vint 42),
     ([98], Bson.BsonValue.vstr [104, 105]),
     ([99], Bson.BsonValue.varray [Bson.BsonValue.vbool true,
        Bson.BsonValue.vdoc [([100], Bson.BsonValue.vnull)]]),
     ([101], Bson.BsonValue.vdoc [([102], Bson.BsonValue.vdate 1000),
        ([103], Bson.BsonValue.objectId [1, 2, 3, 4, 5, 6, 7, 8, 9, 10,
          11, 12]),
        ([107], Bson.BsonValue.vbinary [5, 6]),
        ([108], Bson.BsonValue.vdouble [0, 0, 0, 0, 0, 0, 240, 63])])]
    (by decide)⟩
